import Mathlib

/-!
The package jl: transform pipeline, ULF printer and parser.

A shallow embedding of `transform.go`, `ulf_printer.go` and `parser.go`.

* A Go `string` / `[]byte` is a list of byte values (`GoString`); every byte of a real
  string is below 256, and the definitions below are total on all lists of naturals.
* A Go `int` is modelled by `Int`; lengths of strings are far below 2^63. The padding
  transforms compute with the width itself, so there the 64-bit wrap-around is explicit
  (`wrapInt`).
* A run-time panic (index or slice bounds out of range) is the result `none`.
-/

namespace jl

/-- A Go string: its bytes, in order. -/
abbrev GoString := List Nat

/-! ## Go runtime and standard library pieces used by the source -/

/-- The UTF-8 encoding of a code point, as done by Go's `string(rune)` conversion and
`WriteRune` (surrogates and values above U+10FFFF become U+FFFD). -/
def encodeRune (r : Nat) : GoString :=
  if r < 0x80 then [r]
  else if r < 0x800 then [0xC0 + r / 64, 0x80 + r % 64]
  else if 0xD800 ≤ r ∧ r < 0xE000 then [0xEF, 0xBF, 0xBD]
  else if r < 0x10000 then [0xE0 + r / 4096, 0x80 + r / 64 % 64, 0x80 + r % 64]
  else if r < 0x110000 then
    [0xF0 + r / 262144, 0x80 + r / 4096 % 64, 0x80 + r / 64 % 64, 0x80 + r % 64]
  else [0xEF, 0xBF, 0xBD]

/-- The bytes of a string literal of the source (its UTF-8 encoding). -/
def str (s : String) : GoString :=
  s.data.flatMap fun ch => encodeRune ch.toNat

/-- Whether `lo ≤ c ≤ hi`. -/
def inRange (lo hi c : Nat) : Bool := decide (lo ≤ c) && decide (c ≤ hi)

/-- Whether the byte `c` is a UTF-8 continuation byte (`locb ≤ c ≤ hicb`). -/
def isCont (c : Nat) : Bool := inRange 0x80 0xBF c

/-- The number of bytes that one iteration of the loop of `utf8.RuneCountInString`
advances by, when the string from the current position on is `c :: rest`. This is the
table `first` and the `acceptRanges` of package `unicode/utf8`: an invalid or short
sequence advances by one byte. -/
def runeWidth (c : Nat) (rest : GoString) : Nat :=
  if c < 0x80 then 1
  else if c < 0xC2 then 1
  else if c ≤ 0xDF then
    match rest with
    | c1 :: _ => if isCont c1 then 2 else 1
    | _ => 1
  else if c ≤ 0xEF then
    match rest with
    | c1 :: c2 :: _ =>
      if !(inRange (if c = 0xE0 then 0xA0 else 0x80) (if c = 0xED then 0x9F else 0xBF) c1)
      then 1
      else if !(isCont c2) then 1 else 3
    | _ => 1
  else if c ≤ 0xF4 then
    match rest with
    | c1 :: c2 :: c3 :: _ =>
      if !(inRange (if c = 0xF0 then 0x90 else 0x80) (if c = 0xF4 then 0x8F else 0xBF) c1)
      then 1
      else if !(isCont c2) then 1
      else if !(isCont c3) then 1 else 4
    | _ => 1
  else 1

/-- The loop of `utf8.RuneCountInString`: `fuel` bounds the number of iterations. -/
def runeCountLoop : Nat → GoString → Nat
  | 0, _ => 0
  | _ + 1, [] => 0
  | fuel + 1, c :: rest => 1 + runeCountLoop fuel (rest.drop (runeWidth c rest - 1))

/-- Go's `utf8.RuneCountInString`: the number of code points of `s`, every invalid byte
counting as one. The loop runs at most `len(s)` times, each iteration consuming at least
one byte. -/
def RuneCountInString (s : GoString) : Nat := runeCountLoop s.length s

/-- Go's `strings.Split(s, ".")`: the segments between the dots, at least one. -/
def Split : GoString → List GoString
  | [] => [[]]
  | c :: rest =>
    if c = 46 then [] :: Split rest
    else
      match Split rest with
      | [] => [[c]]
      | p :: ps => (c :: p) :: ps

/-- The slice expression `s[:hi]`; it panics unless `0 ≤ hi ≤ len(s)`. -/
def sliceTo (s : GoString) (hi : Int) : Option GoString :=
  if 0 ≤ hi ∧ hi ≤ (s.length : Int) then some (s.take hi.toNat) else none

/-- The slice expression `s[lo:]`; it panics unless `0 ≤ lo ≤ len(s)`. -/
def sliceFrom (s : GoString) (lo : Int) : Option GoString :=
  if 0 ≤ lo ∧ lo ≤ (s.length : Int) then some (s.drop lo.toNat) else none

/-! ## transform.go -/

/-- The transformation context. -/
structure Context where
  Original : GoString
  DisableColor : Bool
  DisableTruncate : Bool

/-- The state of the first loop of `Compress.Transform`. -/
structure CompressState where
  compressedPartsIndex : Nat
  compressedParts : List GoString
  compressedSize : Int

/-- The loop `for _, part := range parts[:nCompressableParts]` of `Compress.Transform`.
`part[0]` panics on an empty part. -/
def compressLoop (c : Int) : List GoString → CompressState → Option CompressState
  | [], st => some st
  | part :: rest, st =>
    match part with
    | [] => none
    | b :: _ =>
      let compressedPartsIndex := st.compressedPartsIndex + 1
      let compressedParts := st.compressedParts ++ [encodeRune b]
      let compressedSize := st.compressedSize - ((part.length : Int) - 1)
      if compressedSize ≤ c then
        some ⟨compressedPartsIndex, compressedParts, compressedSize⟩
      else
        compressLoop c rest ⟨compressedPartsIndex, compressedParts, compressedSize - 1⟩

/-- The contents of `outputBuffer` when `lastPart` is reached. -/
def compressHead (c : Int) (parts : List GoString) (compressedSize : Int) :
    Option GoString :=
  let nCompressableParts := parts.length - 1
  if nCompressableParts > 0 then
    (compressLoop c (parts.take nCompressableParts) ⟨0, [], compressedSize⟩).map fun st =>
      let outputBuffer := st.compressedParts.flatten ++ [46]
      if st.compressedPartsIndex < nCompressableParts then
        outputBuffer
          ++ ((parts.take nCompressableParts).drop st.compressedPartsIndex).flatten ++ [46]
      else outputBuffer
  else some []

/-- The end of `Compress.Transform`: what is returned once `outputBuffer` holds the
compressed head and `lastPart` is `parts[nCompressableParts]`. -/
def compressTail (c : Int) (outputBuffer lastPart : GoString) : Option GoString :=
  if c - outputBuffer.length - lastPart.length ≥ 0 then
    some (outputBuffer ++ lastPart)
  else if c - outputBuffer.length ≥ 0 then
    (sliceTo lastPart (c - outputBuffer.length)).map fun t => outputBuffer ++ t
  else if (lastPart.length : Int) > c then
    sliceTo lastPart c
  else some lastPart

/-- The method `func (c Compress) Transform(ctx *Context, input string) string`. -/
def Compress.Transform (c : Int) (ctx : Context) (input : GoString) : Option GoString :=
  if ctx.DisableTruncate then some input
  else
    let compressedSize : Int := RuneCountInString input
    if compressedSize ≤ c then some input
    else
      let parts := Split input
      let nCompressableParts := parts.length - 1
      match compressHead c parts compressedSize with
      | none => none
      | some outputBuffer =>
        compressTail c outputBuffer (parts.getD nCompressableParts [])

/-- The method `func (t Truncate) Transform(ctx *Context, input string) string`. -/
def Truncate.Transform (t : Int) (ctx : Context) (input : GoString) : Option GoString :=
  if ctx.DisableTruncate then some input
  else if (RuneCountInString input : Int) ≤ t then some input
  else sliceTo input t

/-- The three bytes of the ellipsis character U+2026. -/
def ellipsis : GoString := [0xE2, 0x80, 0xA6]

/-- The method `func (remain Ellipsize) Transform(ctx *Context, input string) string`.
Go's `/` on `int` truncates toward zero. -/
def Ellipsize.Transform (remain : Int) (ctx : Context) (input : GoString) :
    Option GoString :=
  if ctx.DisableTruncate then some input
  else
    let length : Int := RuneCountInString input
    if length ≤ remain then some input
    else
      let remain := remain - 1
      let chomped := length - remain
      let start := Int.tdiv remain 2
      let endPos := start + chomped
      match sliceTo input start, sliceFrom input endPos with
      | some a, some b => some (a ++ ellipsis ++ b)
      | _, _ => none

/-- Go's `int` arithmetic on a 64-bit platform: the two's complement value of `x`. -/
def wrapInt (x : Int) : Int :=
  (x + 9223372036854775808) % 18446744073709551616 - 9223372036854775808

/-- The constant `maxAlloc` of the Go runtime on a 64-bit platform, `1 << 48`. -/
def maxAlloc : Int := 281474976710656

/-- Whether `make([]byte, 0, cap)` panics with `makeslice: cap out of range`: the
capacity is negative or above `maxAlloc`. An allocation within the limit is taken to
succeed. -/
def makeslicePanics (cap : Int) : Bool := decide (cap < 0 ∨ maxAlloc < cap)

/-- The method `func (t LeftPad) Transform(ctx *Context, input string) string`. The
subtraction and the sum `spaces+len(input)` are `int` operations. -/
def LeftPad.Transform (t : Int) (_ctx : Context) (input : GoString) : Option GoString :=
  let spaces : Int := wrapInt (t - (RuneCountInString input : Int))
  if spaces ≤ 0 then some input
  else if makeslicePanics (wrapInt (spaces + (input.length : Int))) then none
  else some (List.replicate spaces.toNat 32 ++ input)

/-- The method `func (t RightPad) Transform(ctx *Context, input string) string`. The
subtraction and the sum `pad+len(input)` are `int` operations. -/
def RightPad.Transform (t : Int) (_ctx : Context) (input : GoString) : Option GoString :=
  let pad : Int := wrapInt (t - (RuneCountInString input : Int))
  if pad ≤ 0 then some input
  else if makeslicePanics (wrapInt (pad + (input.length : Int))) then none
  else some (input ++ List.replicate pad.toNat 32)

/-- Go's `fmt.Sprintf(format, arg)` with one string operand, for the formats made of
plain bytes, `%%` and the plain verb `%s` (the ones the layouts use). `used` records
that the operand has been consumed. The result is `none` for any other verb, which this
development does not model. -/
def sprintfLoop (arg : GoString) : GoString → Bool → Option GoString
  | [], used => some (if used then [] else str "%!(EXTRA string=" ++ arg ++ str ")")
  | 37 :: 115 :: rest, used =>
    (sprintfLoop arg rest true).map fun r =>
      (if used then str "%!s(MISSING)" else arg) ++ r
  | 37 :: 37 :: rest, used => (sprintfLoop arg rest used).map fun r => 37 :: r
  | 37 :: _, _ => none
  | b :: rest, used => (sprintfLoop arg rest used).map fun r => b :: r

/-- The method `func (t Format) Transform(ctx *Context, input string) string`. -/
def Format.Transform (t : GoString) (_ctx : Context) (input : GoString) :
    Option GoString :=
  sprintfLoop input t false

/-! ## ulf_printer.go -/

/-- Go's `strings.HasPrefix`. -/
def HasPrefix (s pre : GoString) : Bool := pre.isPrefixOf s

/-- One decoded log line: `Partials` is `none` for the nil map. A `json.RawMessage` is
its bytes; the zero value read for a missing key has no bytes. -/
structure Entry where
  Partials : Option (List (GoString × GoString))
  Raw : GoString

/-- The value `m[key]` of a Go map, the zero value when the key is missing. -/
def mapIndex (m : List (GoString × GoString)) (key : GoString) : GoString :=
  (m.lookup key).getD []

/-- The printer; `Out` is passed to `Print` as the bytes written so far. The type
`FieldFmt` is declared outside these files. -/
structure ULFPrinter (FieldFmt : Type) where
  DisableColor : Bool
  DisableTruncate : Bool
  ServiceFieldFormats : List FieldFmt
  CommunicationFieldFormats : List FieldFmt

/-- The type of `DefaultStringer`, which is declared outside these files: it receives
the context by pointer, so it returns the context as it leaves it. -/
abbrev Stringer := Context → GoString → GoString × Context

/-- The type of the method `FieldFmt.format`, which is declared outside these files: it
receives the context by pointer, so it returns the context as it leaves it; `none` is a
panic of one of its transformers. -/
abbrev Formatter (FieldFmt : Type) := FieldFmt → Context → Entry → Option (GoString × Context)

/-- The loop `for i, fieldFmt := range fieldFormats` of `Print`; `out` is what has been
written to `p.Out`. -/
def printLoop {FieldFmt : Type} (format : Formatter FieldFmt) (entry : Entry) :
    Nat → List FieldFmt → Context → GoString → Option GoString
  | _, [], _, out => some out
  | i, fieldFmt :: fieldFormats, ctx, out =>
    match format fieldFmt ctx entry with
    | none => none
    | some (formattedField, ctx) =>
      let out :=
        if formattedField ≠ [] then
          (if i ≠ 0 ∧ ¬ HasPrefix formattedField [10] then out ++ [32] else out)
            ++ formattedField
        else out
      printLoop format entry (i + 1) fieldFormats ctx out

/-- The method `func (p *ULFPrinter) Print(entry *Entry)`: the contents of `p.Out`
after the call, given its contents `out` before. -/
def ULFPrinter.Print {FieldFmt : Type} (p : ULFPrinter FieldFmt)
    (DefaultStringer : Stringer) (format : Formatter FieldFmt) (entry : Entry)
    (out : GoString) : Option GoString :=
  match entry.Partials with
  | none => some (out ++ entry.Raw ++ [10])
  | some partials =>
    let ctx : Context := ⟨[], p.DisableColor, p.DisableTruncate⟩
    let (category, ctx) := DefaultStringer ctx (mapIndex partials (str "category"))
    if category = str "SERVICE" then
      (printLoop format entry 0 p.ServiceFieldFormats ctx (out ++ str "SERV ")).map
        fun out => out ++ [10]
    else if category = str "COMMUNICATION" then
      (printLoop format entry 0 p.CommunicationFieldFormats ctx (out ++ str "COMM ")).map
        fun out => out ++ [10]
    else some (out ++ entry.Raw ++ [10])

/-! ## Notions used to state the properties -/

/-- The rendered field strings of a layout, in layout order: each field is formatted
with the context the previous one left. `none` when a field panics. -/
def renderAll {FieldFmt : Type} (format : Formatter FieldFmt) (entry : Entry) :
    Context → List FieldFmt → Option (List GoString)
  | _, [] => some []
  | ctx, f :: fs =>
    match format f ctx entry with
    | none => none
    | some (r, ctx) => (renderAll format entry ctx fs).map fun rs => r :: rs

/-- The non-empty strings of `rs` joined by one space. -/
def joinNonEmpty (rs : List GoString) : GoString :=
  [32].intercalate (rs.filter fun r => r ≠ [])

/-- The string `s_1.s_2. ... .s_k.t`: every leading segment followed by a dot, then the
tail. -/
def dotted (segs : List GoString) (t : GoString) : GoString :=
  (segs.map fun s => s ++ [46]).flatten ++ t

/-- The first bytes of the segments, concatenated. -/
def initials (segs : List GoString) : GoString :=
  (segs.map fun s => s.take 1).flatten

/-- The total number of bytes of the segments. -/
def totalLength (segs : List GoString) : Nat := (segs.map List.length).sum

/-- What the loop of `Print` writes for the rendered field strings `rs`, the first of
them at layout index `i`. -/
def writeFields : Nat → List GoString → GoString
  | _, [] => []
  | i, r :: rs =>
    (if r ≠ [] then (if i ≠ 0 ∧ ¬ HasPrefix r [10] then [32] else []) ++ r else [])
      ++ writeFields (i + 1) rs

/-- The space that precedes the first non-empty field when the field at layout index 0
is empty: the separator is left out at index 0 only. -/
def leadingSpace (rs : List GoString) : GoString :=
  if rs.head? = some [] ∧ (rs.filter fun r => r ≠ []) ≠ [] then [32] else []

/-- The context `Print` builds from the flags of the printer. -/
def printContext {FieldFmt : Type} (p : ULFPrinter FieldFmt) : Context :=
  ⟨[], p.DisableColor, p.DisableTruncate⟩

/-- The transformers `Ellipsize(18), Format("[%s]"), RightPad(20)` of the `instance`
field of both default layouts, applied in order; the colour transformer that follows
them is declared outside these files. -/
def instanceTransformers (ctx : Context) (input : GoString) : Option GoString :=
  (Ellipsize.Transform 18 ctx input).bind fun s =>
    (Format.Transform (str "[%s]") ctx s).bind fun s => RightPad.Transform 20 ctx s

/-- Modelled from the spec: the default stringer (declared outside these files), which
produces the display string of a raw JSON value, for the values used in the examples: a
string literal without escapes displays as its content, any other value as its text. It
leaves the context as it is. -/
def exampleStringer : Stringer := fun ctx raw =>
  (match raw with
    | 34 :: rest => if rest.getLast? = some 34 then rest.dropLast else raw
    | _ => raw, ctx)

/-- Modelled from the spec: `FieldFmt.format` (declared outside these files) for a
field with one finder, the top-level key `key`, and no transformers: the display string
of the value, empty when the key is missing. -/
def exampleFormat : Formatter GoString := fun key ctx entry =>
  match entry.Partials with
  | none => some ([], ctx)
  | some m =>
    match m.lookup key with
    | none => some ([], ctx)
    | some raw => some (exampleStringer ctx raw)

/-- The transformers `Compress(30), Format("%s"), LeftPad(30)` of the `logger` field of
both default layouts, applied in order; the colour transformer that follows them is
declared outside these files. -/
def loggerTransformers (ctx : Context) (input : GoString) : Option GoString :=
  (Compress.Transform 30 ctx input).bind fun s =>
    (Format.Transform (str "%s") ctx s).bind fun s => LeftPad.Transform 30 ctx s

/-! ## parser.go -/

/-- Go's `bytes.IndexByte`. -/
def IndexByte : GoString → Nat → Option Nat
  | [], _ => none
  | c :: rest, b => if c = b then some 0 else (IndexByte rest b).map fun i => i + 1

/-- The function `dropCR` of package `bufio`: it drops one terminal `\r`. -/
def dropCR (data : GoString) : GoString :=
  if data.getLast? = some 13 then data.dropLast else data

/-- Go's `bufio.ScanLines`, the split function of a new `Scanner`: the number of bytes
to advance by and the line found, if any. -/
def ScanLines (data : GoString) (atEOF : Bool) : Nat × Option GoString :=
  if atEOF = true ∧ data = [] then (0, none)
  else
    match IndexByte data 10 with
    | some i => (i + 1, some (dropCR (data.take i)))
    | none => if atEOF then (data.length, some (dropCR data)) else (0, none)

/-- The errors of a `bufio.Scanner`. -/
inductive ScanError
  | ErrTooLong
  deriving DecidableEq

/-- What one call of `Scan` does: it finds a line and leaves `rest` unread, or it
returns false, and `Err()` is `err` from then on. -/
inductive ScanStep
  | line (raw rest : GoString)
  | stop (err : Option ScanError)

/-- One call of `(*Scanner).Scan` with the split function `ScanLines` and a buffer of
`maxTokenSize` bytes, on a reader that still has the bytes `pending` to deliver and
reports the end of the input by a read of its own. The buffer holds the first
`maxTokenSize` bytes of `pending` at most; when it is full and holds no line the scan
stops with `ErrTooLong`. -/
def Scanner.Scan (maxTokenSize : Nat) (pending : GoString) : ScanStep :=
  match ScanLines (pending.take maxTokenSize) false with
  | (advance, some raw) => .line raw (pending.drop advance)
  | (_, none) =>
    if maxTokenSize ≤ pending.length then .stop (some .ErrTooLong)
    else
      match ScanLines pending true with
      | (advance, some raw) => .line raw (pending.drop advance)
      | (_, none) => .stop none

/-- The loop `for s.Scan() { ... }` of `Parser.Consume`. `Unmarshal raw` is the map that
`json.Unmarshal(raw, &partials)` leaves in the nil variable `partials` (its error is
dropped by the source); `Print` is the printer, acting on its state. `fuel` bounds the
number of iterations, and `none` is the result when it runs out. -/
def consumeLoop {σ : Type} (Unmarshal : GoString → Option (List (GoString × GoString)))
    (Print : Entry → σ → σ) (maxTokenSize : Nat) :
    Nat → GoString → σ → Option (σ × Option ScanError)
  | 0, _, _ => none
  | fuel + 1, pending, st =>
    match Scanner.Scan maxTokenSize pending with
    | .line raw rest =>
      consumeLoop Unmarshal Print maxTokenSize fuel rest (Print ⟨Unmarshal raw, raw⟩ st)
    | .stop err => some (st, err)

/-- The size `512*1024*1024` that `Consume` gives to `s.Buffer`. -/
def maxLine : Nat := 512 * 1024 * 1024

/-- The method `func (p *Parser) Consume() error` on the input `input`: the state of
the printer after the call and the error returned. Every iteration consumes at least one
byte, so `len(input) + 1` iterations are enough. -/
def Parser.Consume {σ : Type} (Unmarshal : GoString → Option (List (GoString × GoString)))
    (Print : Entry → σ → σ) (input : GoString) (st : σ) :
    Option (σ × Option ScanError) :=
  consumeLoop Unmarshal Print maxLine (input.length + 1) input st

/-- The lines of an input: the bytes between the `\n` delimiters; an input that ends
with the delimiter has no line after it. -/
def inputLines : GoString → List GoString
  | [] => []
  | c :: rest =>
    if c = 10 then [] :: inputLines rest
    else
      match inputLines rest with
      | [] => [[c]]
      | l :: ls => (c :: l) :: ls

/-- A printer that records the entries it is given, in order. -/
def recordEntry (entry : Entry) (log : List (Option (List (GoString × GoString)) × GoString)) :
    List (Option (List (GoString × GoString)) × GoString) :=
  log ++ [(entry.Partials, entry.Raw)]

/-- All bytes are ASCII. -/
def isASCII (s : GoString) : Prop := ∀ b ∈ s, b < 128

instance (s : GoString) : Decidable (isASCII s) := by
  unfold isASCII; infer_instance

/-! ## Code points and bytes -/

theorem runeCountLoop_le_length (fuel : Nat) (s : GoString) :
    runeCountLoop fuel s ≤ s.length := by
  induction fuel generalizing s with
  | zero => simp [runeCountLoop]
  | succ k ih =>
    cases s with
    | nil => simp [runeCountLoop]
    | cons c rest =>
      have h := ih (rest.drop (runeWidth c rest - 1))
      simp only [runeCountLoop, List.length_cons]
      simp only [List.length_drop] at h
      omega

theorem runeCountLoop_fuel_irrelevant (f1 f2 : Nat) (s : GoString)
    (h1 : s.length ≤ f1) (h2 : s.length ≤ f2) :
    runeCountLoop f1 s = runeCountLoop f2 s := by
  induction f1 generalizing f2 s with
  | zero =>
    have : s = [] := List.eq_nil_of_length_eq_zero (by omega)
    subst this
    cases f2 <;> rfl
  | succ k ih =>
    cases s with
    | nil => cases f2 <;> rfl
    | cons c rest =>
      simp only [List.length_cons] at h1 h2
      cases f2 with
      | zero => omega
      | succ k2 =>
        have hd : (rest.drop (runeWidth c rest - 1)).length ≤ rest.length := by
          simp only [List.length_drop]
          omega
        simp only [runeCountLoop]
        rw [ih k2 _ (by omega) (by omega)]

/-- The fuel `len(s)` is enough: more fuel does not change the count. -/
theorem runeCountLoop_fuel (fuel : Nat) (s : GoString) (hf : s.length ≤ fuel) :
    runeCountLoop fuel s = RuneCountInString s :=
  runeCountLoop_fuel_irrelevant fuel s.length s hf (le_refl _)

theorem RuneCountInString_le_length (s : GoString) : RuneCountInString s ≤ s.length :=
  runeCountLoop_le_length _ s

/-! ## The end of `Compress.Transform` -/

theorem sliceTo_length {s r : GoString} {hi : Int} (h : sliceTo s hi = some r) :
    (r.length : Int) = hi := by
  unfold sliceTo at h
  split at h
  · rename_i hb
    obtain ⟨h0, h1⟩ := hb
    simp only [Option.some.injEq] at h
    subst h
    rw [List.length_take]
    omega
  · simp at h

theorem compressTail_length_le {c : Int} {buf last r : GoString}
    (h : compressTail c buf last = some r) : (r.length : Int) ≤ c := by
  unfold compressTail at h
  split at h
  · simp only [Option.some.injEq] at h
    subst h
    simp only [List.length_append]
    push_cast
    omega
  · split at h
    · simp only [Option.map_eq_some'] at h
      obtain ⟨t, ht, rfl⟩ := h
      have := sliceTo_length ht
      simp only [List.length_append]
      push_cast
      omega
    · split at h
      · have := sliceTo_length h
        omega
      · simp only [Option.some.injEq] at h
        subst h
        omega

/-- Past the two early returns, whatever `Compress.Transform` returns has at most `c`
bytes. -/
theorem Compress_cut_length_le {c : Int} {ctx : Context} {s r : GoString}
    (hT : ctx.DisableTruncate = false) (hlong : c < (RuneCountInString s : Int))
    (h : Compress.Transform c ctx s = some r) : (r.length : Int) ≤ c := by
  unfold Compress.Transform at h
  simp only [hT, Bool.false_eq_true, if_false] at h
  rw [if_neg (by omega)] at h
  split at h
  · simp at h
  · exact compressTail_length_le h

/-- When the input has at most `c` code points, or truncation is disabled,
`Compress.Transform` returns the input itself. -/
theorem Compress_short {c : Int} {ctx : Context} {s r : GoString}
    (hs : ctx.DisableTruncate = true ∨ (RuneCountInString s : Int) ≤ c)
    (h : Compress.Transform c ctx s = some r) : r = s := by
  unfold Compress.Transform at h
  rcases hs with hT | hs
  · simp only [hT, if_true, Option.some.injEq] at h
    exact h.symm
  · split at h
    · simp only [Option.some.injEq] at h
      exact h.symm
    · rw [if_pos hs] at h
      simp only [Option.some.injEq] at h
      exact h.symm

/-! ## The claims on `Compress`, `Truncate` and `Ellipsize` -/

/-- C1: with truncation enabled, whatever `Compress(n).Transform` returns has at most
`n` code points, and when the input has more than `n` code points it has at most `n`
bytes. -/
theorem Compress_fits_width (n : Int) (ctx : Context) (s r : GoString)
    (hT : ctx.DisableTruncate = false) (h : Compress.Transform n ctx s = some r) :
    (RuneCountInString r : Int) ≤ n ∧
      (n < (RuneCountInString s : Int) → (r.length : Int) ≤ n) := by
  have hr := RuneCountInString_le_length r
  by_cases hlong : n < (RuneCountInString s : Int)
  · have hb := Compress_cut_length_le hT hlong h
    exact ⟨by omega, fun _ => hb⟩
  · have hrs : r = s := Compress_short (Or.inr (by omega)) h
    subst hrs
    exact ⟨by omega, fun hc => absurd hc hlong⟩

/-- Witness of C1: `Compress(5)` on `a.b.c.Target`. -/
theorem Compress_fits_width_witness :
    Compress.Transform 5 ⟨[], false, false⟩ (str "a.b.c.Target") = some (str "abc.T") ∧
      (RuneCountInString (str "abc.T") : Int) ≤ 5 ∧
      ((5 : Int) < (RuneCountInString (str "a.b.c.Target") : Int) →
        (((str "abc.T").length : Nat) : Int) ≤ 5) :=
  ⟨by decide,
    Compress_fits_width 5 ⟨[], false, false⟩ (str "a.b.c.Target") (str "abc.T") rfl
      (by decide)⟩

/-- C9: whatever `Compress(n).Transform` returns is not longer than the input, in bytes
and in code points, and it is strictly shorter in both when the input has more than `n`
code points and truncation is enabled. -/
theorem Compress_never_longer (n : Int) (ctx : Context) (s r : GoString)
    (h : Compress.Transform n ctx s = some r) :
    r.length ≤ s.length ∧ RuneCountInString r ≤ RuneCountInString s ∧
      (n < (RuneCountInString s : Int) → ctx.DisableTruncate = false →
        r.length < s.length ∧ RuneCountInString r < RuneCountInString s) := by
  have hr := RuneCountInString_le_length r
  have hs := RuneCountInString_le_length s
  by_cases hcut : ctx.DisableTruncate = false ∧ n < (RuneCountInString s : Int)
  · have hb := Compress_cut_length_le hcut.1 hcut.2 h
    refine ⟨by omega, by omega, fun _ _ => ⟨by omega, by omega⟩⟩
  · have hrs : r = s := by
      apply Compress_short _ h
      by_cases hT : ctx.DisableTruncate = true
      · exact Or.inl hT
      · right
        have hF : ctx.DisableTruncate = false := by simpa using hT
        by_contra hc
        exact hcut ⟨hF, by omega⟩
    subst hrs
    exact ⟨le_refl _, le_refl _, fun h1 h2 => absurd ⟨h2, h1⟩ hcut⟩

/-- Witness of C9: `Compress(20)` on `com.example.service.Handler`. -/
theorem Compress_never_longer_witness :
    (str "ce.service.Handler").length ≤ (str "com.example.service.Handler").length ∧
      RuneCountInString (str "ce.service.Handler")
        ≤ RuneCountInString (str "com.example.service.Handler") ∧
      ((20 : Int) < (RuneCountInString (str "com.example.service.Handler") : Int) →
        (⟨[], false, false⟩ : Context).DisableTruncate = false →
        (str "ce.service.Handler").length < (str "com.example.service.Handler").length ∧
          RuneCountInString (str "ce.service.Handler")
            < RuneCountInString (str "com.example.service.Handler")) :=
  Compress_never_longer 20 ⟨[], false, false⟩ (str "com.example.service.Handler")
    (str "ce.service.Handler") (by decide)

/-- C10: when `DisableTruncate` is set, `Truncate`, `Ellipsize` and `Compress` return
their input unchanged, for every width (negative ones included) and every input, and
none of them panics. -/
theorem DisableTruncate_identity (ctx : Context) (hT : ctx.DisableTruncate = true)
    (n : Int) (s : GoString) :
    Truncate.Transform n ctx s = some s ∧ Ellipsize.Transform n ctx s = some s ∧
      Compress.Transform n ctx s = some s := by
  refine ⟨?_, ?_, ?_⟩
  · simp [Truncate.Transform, hT]
  · simp [Ellipsize.Transform, hT]
  · simp [Compress.Transform, hT]

/-- Witness of C10: width `-1` and the input `a..b`, which has an empty segment. -/
theorem DisableTruncate_identity_witness :
    Truncate.Transform (-1) ⟨[], false, true⟩ (str "a..b") = some (str "a..b") ∧
      Ellipsize.Transform (-1) ⟨[], false, true⟩ (str "a..b") = some (str "a..b") ∧
      Compress.Transform (-1) ⟨[], false, true⟩ (str "a..b") = some (str "a..b") :=
  DisableTruncate_identity ⟨[], false, true⟩ rfl (-1) (str "a..b")

/-! ## Splitting a dotted name, and the first loop of `Compress.Transform` -/

theorem Split_ne_nil (s : GoString) : Split s ≠ [] := by
  cases s with
  | nil => simp [Split]
  | cons c rest =>
    unfold Split
    split
    · simp
    · split <;> simp

theorem Split_no_dot (t : GoString) (ht : 46 ∉ t) : Split t = [t] := by
  induction t with
  | nil => rfl
  | cons c rest ih =>
    simp only [List.mem_cons, not_or] at ht
    have hc : c ≠ 46 := fun h => ht.1 h.symm
    simp [Split, hc, ih ht.2]

theorem Split_append_dot (a rest : GoString) (ha : 46 ∉ a) :
    Split (a ++ 46 :: rest) = a :: Split rest := by
  induction a with
  | nil => simp [Split]
  | cons c a ih =>
    simp only [List.mem_cons, not_or] at ha
    have hc : c ≠ 46 := fun h => ha.1 h.symm
    simp [Split, hc, ih ha.2]

theorem Split_dotted (segs : List GoString) (t : GoString)
    (hsegs : ∀ s ∈ segs, 46 ∉ s) (ht : 46 ∉ t) :
    Split (dotted segs t) = segs ++ [t] := by
  induction segs with
  | nil => simpa [dotted] using Split_no_dot t ht
  | cons a segs ih =>
    have h1 : dotted (a :: segs) t = a ++ 46 :: dotted segs t := by
      simp [dotted]
    rw [h1, Split_append_dot a _ (hsegs a (List.mem_cons_self _ _)),
      ih (fun s hs => hsegs s (List.mem_cons_of_mem _ hs))]
    rfl

theorem runeCountLoop_ascii (fuel : Nat) (s : GoString) (hs : isASCII s)
    (hf : s.length ≤ fuel) : runeCountLoop fuel s = s.length := by
  induction fuel generalizing s with
  | zero =>
    have : s = [] := List.eq_nil_of_length_eq_zero (by omega)
    subst this
    rfl
  | succ k ih =>
    cases s with
    | nil => rfl
    | cons c rest =>
      have hc : c < 128 := hs c (List.mem_cons_self _ _)
      have hw : runeWidth c rest = 1 := by simp [runeWidth, hc]
      have hrest : isASCII rest := fun b hb => hs b (List.mem_cons_of_mem _ hb)
      simp only [List.length_cons] at hf
      simp only [runeCountLoop, hw, Nat.sub_self, List.drop_zero, List.length_cons]
      rw [ih rest hrest (by omega)]
      omega

theorem RuneCountInString_ascii (s : GoString) (hs : isASCII s) :
    RuneCountInString s = s.length :=
  runeCountLoop_ascii _ s hs (le_refl _)

theorem length_dotted (segs : List GoString) (t : GoString) :
    (dotted segs t).length = totalLength segs + segs.length + t.length := by
  induction segs with
  | nil => simp [dotted, totalLength]
  | cons a segs ih =>
    simp only [dotted, totalLength, List.map_cons, List.flatten_cons, List.length_append,
      List.length_cons, List.length_nil, List.sum_cons, List.append_assoc] at ih ⊢
    omega

theorem isASCII_dotted (segs : List GoString) (t : GoString)
    (hsegs : ∀ s ∈ segs, isASCII s) (ht : isASCII t) : isASCII (dotted segs t) := by
  intro b hb
  simp only [dotted, List.mem_append, List.mem_flatten, List.mem_map] at hb
  rcases hb with ⟨l, ⟨s, hs, rfl⟩, hb⟩ | hb
  · simp only [List.mem_append, List.mem_singleton] at hb
    rcases hb with hb | hb
    · exact hsegs s hs b hb
    · omega
  · exact ht b hb

theorem encodeRune_ascii (b : Nat) (hb : b < 128) : encodeRune b = [b] := by
  simp [encodeRune, hb]

theorem length_initials (segs : List GoString) (hne : ∀ s ∈ segs, s ≠ []) :
    (initials segs).length = segs.length := by
  induction segs with
  | nil => rfl
  | cons a segs ih =>
    have ha : a ≠ [] := hne a (List.mem_cons_self _ _)
    have h1 : (a.take 1).length = 1 := by
      cases a with
      | nil => exact absurd rfl ha
      | cons x xs => simp
    have ih2 := ih (fun s hs => hne s (List.mem_cons_of_mem _ hs))
    simp only [initials, List.map_cons, List.flatten_cons, List.length_append,
      List.length_cons] at ih2 ⊢
    omega

/-- While abbreviating all the segments still does not fit, the loop runs to the end:
it abbreviates every segment and never stops early. -/
theorem compressLoop_no_break (c : Int) (segs : List GoString) (st : CompressState)
    (hne : ∀ s ∈ segs, s ≠ []) (hascii : ∀ s ∈ segs, isASCII s)
    (hbig : c < st.compressedSize - (totalLength segs : Int) + 1) :
    compressLoop c segs st =
      some ⟨st.compressedPartsIndex + segs.length,
        st.compressedParts ++ segs.map (fun s => s.take 1),
        st.compressedSize - (totalLength segs : Int)⟩ := by
  induction segs generalizing st with
  | nil => simp [compressLoop, totalLength]
  | cons a segs ih =>
    cases a with
    | nil => exact absurd rfl (hne [] (List.mem_cons_self _ _))
    | cons b bs =>
      have hb : b < 128 := hascii (b :: bs) (List.mem_cons_self _ _) b
        (List.mem_cons_self _ _)
      have htl : (totalLength ((b :: bs) :: segs) : Int)
          = (bs.length : Int) + 1 + (totalLength segs : Int) := by
        simp [totalLength]
      rw [htl] at hbig
      have hnb : ¬ st.compressedSize - (((b :: bs).length : Nat) - 1 : Int) ≤ c := by
        simp only [List.length_cons]
        push_cast
        omega
      simp only [compressLoop]
      rw [if_neg hnb]
      rw [ih _ (fun s hs => hne s (List.mem_cons_of_mem _ hs))
        (fun s hs => hascii s (List.mem_cons_of_mem _ hs))
        (by simp only [List.length_cons]; push_cast; omega)]
      simp only [encodeRune_ascii b hb, List.length_cons, List.map_cons, List.take_succ_cons,
        List.take_zero, List.append_assoc, List.singleton_append, htl, Option.some.injEq,
        CompressState.mk.injEq]
      refine ⟨by omega, trivial, ?_⟩
      push_cast
      omega

/-- On `s_1. ... .s_k.t` with `n < k + 1 + len(t)`, `Compress(n).Transform` reaches its
last part with the buffer holding the `k` initials and one dot. -/
theorem Compress_reaches_tail (segs : List GoString) (t : GoString) (n : Int)
    (ctx : Context) (hT : ctx.DisableTruncate = false) (hk : segs ≠ [])
    (hne : ∀ s ∈ segs, s ≠ []) (hascii : ∀ s ∈ segs, isASCII s)
    (hdot : ∀ s ∈ segs, 46 ∉ s) (htascii : isASCII t) (htdot : 46 ∉ t)
    (hn : n < (segs.length : Int) + 1 + (t.length : Int)) :
    Compress.Transform n ctx (dotted segs t) = compressTail n (initials segs ++ [46]) t := by
  have hlen : 0 < segs.length := List.length_pos.mpr hk
  have htot : segs.length ≤ totalLength segs := by
    clear hk hascii hdot hn hlen
    induction segs with
    | nil => simp
    | cons a segs ih =>
      have ha : 0 < a.length := List.length_pos.mpr (hne a (List.mem_cons_self _ _))
      have := ih (fun s hs => hne s (List.mem_cons_of_mem _ hs))
      simp only [totalLength, List.map_cons, List.sum_cons, List.length_cons] at this ⊢
      omega
  have hrc : RuneCountInString (dotted segs t)
      = totalLength segs + segs.length + t.length := by
    rw [RuneCountInString_ascii _ (isASCII_dotted segs t hascii htascii), length_dotted]
  have hloop := compressLoop_no_break n segs
    ⟨0, [], ((totalLength segs + segs.length + t.length : Nat) : Int)⟩ hne hascii
    (by simp only; push_cast; omega)
  have htake : (segs ++ [t]).take segs.length = segs := by simp
  have hhead : compressHead n (segs ++ [t])
      ((totalLength segs + segs.length + t.length : Nat) : Int)
      = some (initials segs ++ [46]) := by
    unfold compressHead
    simp only [List.length_append, List.length_singleton, Nat.add_sub_cancel, htake]
    rw [if_pos hlen, hloop]
    simp [initials]
  unfold Compress.Transform
  simp only [hT, Bool.false_eq_true, if_false]
  rw [hrc, if_neg (by push_cast; omega), Split_dotted segs t hdot htdot, hhead]
  simp

/-- C5: on an ASCII input `s_1. ... .s_k.t` with `k ≥ 1` non-empty leading segments and
`0 ≤ n < k + 1 + len(t)`, `Compress(n).Transform` returns, when `k + 1 ≤ n`, the `k`
initials, one dot and the first `n - k - 1` bytes of `t` (exactly `n` bytes), and
otherwise the first `min(n, len(t))` bytes of `t`. -/
theorem Compress_all_abbreviated (segs : List GoString) (t : GoString) (n : Int)
    (ctx : Context) (hT : ctx.DisableTruncate = false) (hk : segs ≠ [])
    (hne : ∀ s ∈ segs, s ≠ []) (hascii : ∀ s ∈ segs, isASCII s)
    (hdot : ∀ s ∈ segs, 46 ∉ s) (htascii : isASCII t) (htdot : 46 ∉ t)
    (hn0 : 0 ≤ n) (hn : n < (segs.length : Int) + 1 + (t.length : Int)) :
    ((segs.length : Int) + 1 ≤ n →
      Compress.Transform n ctx (dotted segs t)
          = some (initials segs ++ [46] ++ t.take (n - segs.length - 1).toNat) ∧
        ((initials segs ++ [46] ++ t.take (n - segs.length - 1).toNat).length : Int) = n) ∧
    (n < (segs.length : Int) + 1 →
      Compress.Transform n ctx (dotted segs t) = some (t.take (min n.toNat t.length))) := by
  have hmain := Compress_reaches_tail segs t n ctx hT hk hne hascii hdot htascii htdot hn
  have hin := length_initials segs hne
  have hbuf : ((initials segs ++ [46]).length : Int) = (segs.length : Int) + 1 := by
    simp [hin]
  constructor
  · intro hfit
    have hcut : n - ((segs.length : Int) + 1) ≤ (t.length : Int) := by omega
    constructor
    · rw [hmain]
      unfold compressTail
      rw [hbuf, if_neg (by omega), if_pos (by omega)]
      unfold sliceTo
      rw [if_pos ⟨by omega, hcut⟩]
      simp only [Option.map_some', Option.some.injEq, List.append_assoc,
        List.append_cancel_left_eq]
      congr 2
      omega
    · simp only [List.length_append, List.length_take, hin, List.length_singleton]
      push_cast
      omega
  · intro hsmall
    rw [hmain]
    unfold compressTail
    rw [hbuf, if_neg (by omega), if_neg (by omega)]
    by_cases hlt : (t.length : Int) > n
    · rw [if_pos hlt]
      unfold sliceTo
      rw [if_pos ⟨hn0, by omega⟩]
      congr 2
      omega
    · rw [if_neg hlt]
      congr 1
      rw [List.take_of_length_le]
      omega

/-- Witness of C5: `Compress(5)` on `a.b.c.Target` returns `abc.T`, and `Compress(2)`
returns `Ta`. -/
theorem Compress_all_abbreviated_witness :
    (Compress.Transform 5 ⟨[], false, false⟩ (str "a.b.c.Target") = some (str "abc.T") ∧
      (((str "abc.T").length : Nat) : Int) = 5) ∧
    Compress.Transform 2 ⟨[], false, false⟩ (str "a.b.c.Target") = some (str "Ta") :=
  ⟨(Compress_all_abbreviated [str "a", str "b", str "c"] (str "Target") 5 ⟨[], false, false⟩
      rfl (by decide) (by decide) (by decide) (by decide) (by decide) (by decide)
      (by decide) (by decide)).1 (by decide),
    (Compress_all_abbreviated [str "a", str "b", str "c"] (str "Target") 2 ⟨[], false, false⟩
      rfl (by decide) (by decide) (by decide) (by decide) (by decide) (by decide)
      (by decide) (by decide)).2 (by decide)⟩

/-! ## The printer -/

theorem printLoop_eq_writeFields {FieldFmt : Type} (format : Formatter FieldFmt)
    (entry : Entry) (fs : List FieldFmt) (i : Nat) (ctx : Context) (out : GoString)
    (rs : List GoString) (h : renderAll format entry ctx fs = some rs) :
    printLoop format entry i fs ctx out = some (out ++ writeFields i rs) := by
  induction fs generalizing i ctx out rs with
  | nil =>
    simp only [renderAll, Option.some.injEq] at h
    subst h
    simp [printLoop, writeFields]
  | cons f fs ih =>
    simp only [renderAll] at h
    simp only [printLoop]
    cases hf : format f ctx entry with
    | none => simp [hf] at h
    | some v =>
      obtain ⟨r, ctx1⟩ := v
      simp only [hf, Option.map_eq_some'] at h
      obtain ⟨rs1, h1, rfl⟩ := h
      simp only [ih (i + 1) ctx1 _ rs1 h1, writeFields, Option.some.injEq]
      by_cases hr : r = []
      · simp [hr]
      · by_cases hsep : i ≠ 0 ∧ ¬ HasPrefix r [10] = true
        · simp [hr, hsep]
        · simp only [hr, hsep, ne_eq, not_false_eq_true, if_true, if_false]
          simp

theorem writeFields_succ (i : Nat) (rs : List GoString)
    (hnl : ∀ r ∈ rs, HasPrefix r [10] = false) :
    writeFields (i + 1) rs
      = ((rs.filter fun r => r ≠ []).map fun r => 32 :: r).flatten := by
  induction rs generalizing i with
  | nil => rfl
  | cons r rs ih =>
    have h1 := hnl r (List.mem_cons_self _ _)
    have h2 := ih (i + 1) (fun x hx => hnl x (List.mem_cons_of_mem _ hx))
    by_cases hr : r = []
    · simp [writeFields, hr, h2]
    · simp [writeFields, hr, h1, h2]

theorem intercalate_cons_eq (a : GoString) (l : List GoString) :
    [32].intercalate (a :: l) = a ++ (l.map fun r => 32 :: r).flatten := by
  induction l generalizing a with
  | nil => simp [List.intercalate]
  | cons b l ih =>
    have h := ih b
    simp only [List.intercalate, List.intersperse, List.flatten_cons, List.map_cons,
      List.singleton_append, List.cons_append] at h ⊢
    rw [h]
    simp

/-- What `Print` writes for the fields, in terms of the non-empty ones joined by single
spaces. -/
theorem writeFields_zero (rs : List GoString)
    (hnl : ∀ r ∈ rs, HasPrefix r [10] = false) :
    writeFields 0 rs = leadingSpace rs ++ joinNonEmpty rs := by
  cases rs with
  | nil => rfl
  | cons r rs =>
    have h2 := writeFields_succ 0 rs (fun x hx => hnl x (List.mem_cons_of_mem _ hx))
    simp only [Nat.zero_add] at h2
    unfold leadingSpace joinNonEmpty
    simp only [writeFields, List.head?_cons, List.filter_cons]
    rw [h2]
    generalize (rs.filter fun r => decide (r ≠ [])) = l
    by_cases hr : r = []
    · subst hr
      cases l with
      | nil => simp [List.intercalate]
      | cons b l => simp [intercalate_cons_eq]
    · simp [hr, intercalate_cons_eq]

theorem writeFields_three (a b c : GoString) (rest : List GoString)
    (ha : a ≠ []) (hb : b ≠ []) (hc : c ≠ [])
    (hb1 : HasPrefix b [10] = false) (hc1 : HasPrefix c [10] = false) :
    writeFields 0 (a :: b :: c :: rest) = a ++ 32 :: b ++ 32 :: c ++ writeFields 3 rest := by
  simp [writeFields, ha, hb, hc, hb1, hc1]

/-- C2: for an entry whose `Partials` is nil, and for an entry whose category string is
neither `SERVICE` nor `COMMUNICATION`, `Print` writes the bytes of `entry.Raw`, one
newline and nothing else, whatever the flags of the printer are. -/
theorem Print_raw_fallback {FieldFmt : Type} (p : ULFPrinter FieldFmt)
    (DefaultStringer : Stringer) (format : Formatter FieldFmt) (entry : Entry)
    (out : GoString)
    (h : entry.Partials = none ∨ ∃ m, entry.Partials = some m ∧
      (DefaultStringer (printContext p) (mapIndex m (str "category"))).1 ≠ str "SERVICE" ∧
      (DefaultStringer (printContext p) (mapIndex m (str "category"))).1
        ≠ str "COMMUNICATION") :
    ULFPrinter.Print p DefaultStringer format entry out = some (out ++ entry.Raw ++ [10]) := by
  rcases h with h | ⟨m, hm, h1, h2⟩
  · simp [ULFPrinter.Print, h]
  · simp only [printContext] at h1 h2
    simp only [ULFPrinter.Print, hm]
    rw [if_neg h1, if_neg h2]

/-- Witness of C2: the lines `not json at all` and `{"category":"UNKNOWN"}`. -/
theorem Print_raw_fallback_witness :
    ULFPrinter.Print (⟨false, false, [str "level"], [str "level"]⟩ : ULFPrinter GoString)
        exampleStringer exampleFormat ⟨none, str "not json at all"⟩ []
      = some (str "not json at all\n") ∧
    ULFPrinter.Print (⟨false, false, [str "level"], [str "level"]⟩ : ULFPrinter GoString)
        exampleStringer exampleFormat
        ⟨some [(str "category", str "\"UNKNOWN\"")], str "\x7b\"category\":\"UNKNOWN\"\x7d"⟩ []
      = some (str "\x7b\"category\":\"UNKNOWN\"\x7d\n") :=
  ⟨Print_raw_fallback _ exampleStringer exampleFormat ⟨none, str "not json at all"⟩ []
      (Or.inl rfl),
    Print_raw_fallback _ exampleStringer exampleFormat
      ⟨some [(str "category", str "\"UNKNOWN\"")], str "\x7b\"category\":\"UNKNOWN\"\x7d"⟩ []
      (Or.inr ⟨_, rfl, by decide, by decide⟩)⟩

/-- C3, as the code has it: for an entry of category `SERVICE` (resp. `COMMUNICATION`)
whose layout renders to the strings `rs`, none of them starting with a newline, `Print`
writes `SERV ` (resp. `COMM `), the non-empty `rs` in layout order joined by single
spaces, and a newline; the separator is left out before the field at layout index 0
only, so when that field is empty and a later one is not, one more space precedes the
first non-empty field. -/
theorem Print_layout_line {FieldFmt : Type} (p : ULFPrinter FieldFmt)
    (DefaultStringer : Stringer) (format : Formatter FieldFmt) (entry : Entry)
    (out : GoString) (m : List (GoString × GoString)) (rs : List GoString)
    (hm : entry.Partials = some m)
    (hnl : ∀ r ∈ rs, HasPrefix r [10] = false) :
    ((DefaultStringer (printContext p) (mapIndex m (str "category"))).1 = str "SERVICE" →
      renderAll format entry (DefaultStringer (printContext p) (mapIndex m (str "category"))).2
        p.ServiceFieldFormats = some rs →
      ULFPrinter.Print p DefaultStringer format entry out
        = some (out ++ str "SERV " ++ leadingSpace rs ++ joinNonEmpty rs ++ [10])) ∧
    ((DefaultStringer (printContext p) (mapIndex m (str "category"))).1
        = str "COMMUNICATION" →
      renderAll format entry (DefaultStringer (printContext p) (mapIndex m (str "category"))).2
        p.CommunicationFieldFormats = some rs →
      ULFPrinter.Print p DefaultStringer format entry out
        = some (out ++ str "COMM " ++ leadingSpace rs ++ joinNonEmpty rs ++ [10])) := by
  have hne : str "COMMUNICATION" ≠ str "SERVICE" := by decide
  constructor
  · intro hcat hr
    simp only [printContext] at hcat hr
    simp only [ULFPrinter.Print, hm]
    rw [if_pos hcat, printLoop_eq_writeFields format entry _ 0 _ _ rs hr,
      writeFields_zero rs hnl]
    simp
  · intro hcat hr
    simp only [printContext] at hcat hr
    simp only [ULFPrinter.Print, hm]
    rw [if_neg (by rw [hcat]; exact hne), if_pos hcat,
      printLoop_eq_writeFields format entry _ 0 _ _ rs hr, writeFields_zero rs hnl]
    simp

/-- Witness of C3: a `SERVICE` entry with level `INFO` and timestamp `t1`. -/
theorem Print_layout_line_witness :
    ULFPrinter.Print (⟨false, false, [str "level", str "timestamp"], []⟩ : ULFPrinter GoString)
        exampleStringer exampleFormat
        ⟨some [(str "category", str "\"SERVICE\""), (str "level", str "\"INFO\""),
          (str "timestamp", str "\"t1\"")], []⟩ []
      = some (str "SERV INFO t1\n") :=
  (Print_layout_line (⟨false, false, [str "level", str "timestamp"], []⟩ : ULFPrinter GoString)
    exampleStringer exampleFormat
    ⟨some [(str "category", str "\"SERVICE\""), (str "level", str "\"INFO\""),
      (str "timestamp", str "\"t1\"")], []⟩ [] _ [str "INFO", str "t1"] rfl
    (by decide)).1 (by decide) (by decide)

/-- Counterexample to C3 as stated: on a `SERVICE` entry without a level, the layout
`level, timestamp` renders to an empty string and `t1`; `Print` writes two spaces after
`SERV`, where joining the non-empty fields would give one. -/
theorem Print_empty_first_field :
    renderAll exampleFormat
        ⟨some [(str "category", str "\"SERVICE\""), (str "timestamp", str "\"t1\"")],
          str "\x7b\"category\":\"SERVICE\",\"timestamp\":\"t1\"\x7d"⟩
        ⟨[], false, false⟩ [str "level", str "timestamp"] = some [[], str "t1"] ∧
    ULFPrinter.Print (⟨false, false, [str "level", str "timestamp"], []⟩ : ULFPrinter GoString)
        exampleStringer exampleFormat
        ⟨some [(str "category", str "\"SERVICE\""), (str "timestamp", str "\"t1\"")],
          str "\x7b\"category\":\"SERVICE\",\"timestamp\":\"t1\"\x7d"⟩ []
      = some (str "SERV  t1\n") ∧
    str "SERV " ++ joinNonEmpty [[], str "t1"] ++ str "\n" = str "SERV t1\n" ∧
    str "SERV  t1\n" ≠ str "SERV t1\n" := by
  decide

/-! ## Scenarios and failing inputs -/

/-- C4, at failing inputs: `Ellipsize(1)` on `éé` (two code points, four bytes) returns
`…é`, which has two code points; `Ellipsize(18)` on nineteen `é` returns a string of
nineteen code points; and `Ellipsize(0)` on `a` panics, the slice `input[2:]` being out
of range. -/
theorem Ellipsize_exceeds_width :
    Ellipsize.Transform 1 ⟨[], false, false⟩ (str "éé") = some (str "…é") ∧
      RuneCountInString (str "éé") = 2 ∧ RuneCountInString (str "…é") = 2 ∧
      Ellipsize.Transform 18 ⟨[], false, false⟩ (str "ééééééééééééééééééé")
        = some (str "éééé…éééééééééééééé") ∧
      RuneCountInString (str "éééé…éééééééééééééé") = 19 ∧
      Ellipsize.Transform 0 ⟨[], false, false⟩ (str "a") = none := by
  decide

/-- C6, as the code has it: with truncation enabled the transformers of the `instance`
field turn `abcdefghijklmnopqrstuvwxyz` into `[abcdefgh…rstuvwxyz]`, 20 code points, and
a `SERVICE` line whose first rendered fields are `INFO`, `t1` and that string begins
with `SERV INFO t1 [abcdefgh…rstuvwxyz]`. -/
theorem instance_field_scenario {FieldFmt : Type} (p : ULFPrinter FieldFmt)
    (DefaultStringer : Stringer) (format : Formatter FieldFmt) (entry : Entry)
    (out : GoString) (m : List (GoString × GoString)) (rest : List GoString)
    (ctx : Context) (hT : ctx.DisableTruncate = false)
    (hm : entry.Partials = some m)
    (hcat : (DefaultStringer (printContext p) (mapIndex m (str "category"))).1
      = str "SERVICE")
    (hr : renderAll format entry
        (DefaultStringer (printContext p) (mapIndex m (str "category"))).2
        p.ServiceFieldFormats
      = some (str "INFO" :: str "t1" :: str "[abcdefgh…rstuvwxyz]" :: rest)) :
    instanceTransformers ctx (str "abcdefghijklmnopqrstuvwxyz")
        = some (str "[abcdefgh…rstuvwxyz]") ∧
      RuneCountInString (str "[abcdefgh…rstuvwxyz]") = 20 ∧
      ∃ tail, ULFPrinter.Print p DefaultStringer format entry out
        = some (out ++ str "SERV INFO t1 [abcdefgh…rstuvwxyz]" ++ tail) := by
  refine ⟨?_, by decide, writeFields 3 rest ++ [10], ?_⟩
  · unfold instanceTransformers Ellipsize.Transform
    rw [hT]
    rfl
  · simp only [printContext] at hcat hr
    simp only [ULFPrinter.Print, hm]
    rw [if_pos hcat, printLoop_eq_writeFields format entry _ 0 _ _ _ hr,
      writeFields_three _ _ _ _ (by decide) (by decide) (by decide) (by decide) (by decide)]
    have h : str "SERV INFO t1 [abcdefgh…rstuvwxyz]"
        = str "SERV " ++ (str "INFO" ++ 32 :: str "t1" ++ 32 :: str "[abcdefgh…rstuvwxyz]") := by
      decide
    rw [h]
    simp

/-- Witness of C6: a `SERVICE` entry whose level, timestamp and instance fields display
as `INFO`, `t1` and `[abcdefgh…rstuvwxyz]`. -/
theorem instance_field_scenario_witness :
    instanceTransformers ⟨[], false, false⟩ (str "abcdefghijklmnopqrstuvwxyz")
        = some (str "[abcdefgh…rstuvwxyz]") ∧
      RuneCountInString (str "[abcdefgh…rstuvwxyz]") = 20 ∧
      ∃ tail, ULFPrinter.Print
          (⟨false, false, [str "level", str "timestamp", str "instance"], []⟩ :
            ULFPrinter GoString)
          exampleStringer exampleFormat
          ⟨some [(str "category", str "\"SERVICE\""), (str "level", str "\"INFO\""),
            (str "timestamp", str "\"t1\""),
            (str "instance", str "\"[abcdefgh…rstuvwxyz]\"")], []⟩ []
        = some ([] ++ str "SERV INFO t1 [abcdefgh…rstuvwxyz]" ++ tail) :=
  instance_field_scenario _ exampleStringer exampleFormat _ [] _ [] ⟨[], false, false⟩ rfl
    rfl (by decide) (by decide)

/-- Counterexample to C6 as stated: what the transformers of the `instance` field
return on `abcdefghijklmnopqrstuvwxyz` does not begin with `[abcdefghijklmnopqr]`. -/
theorem instance_field_not_truncated :
    ¬ ∃ r, instanceTransformers ⟨[], false, false⟩ (str "abcdefghijklmnopqrstuvwxyz") = some r ∧
      HasPrefix r (str "[abcdefghijklmnopqr]") = true := by
  rintro ⟨r, hr, hp⟩
  have h : instanceTransformers ⟨[], false, false⟩ (str "abcdefghijklmnopqrstuvwxyz")
      = some (str "[abcdefgh…rstuvwxyz]") := by decide
  rw [h, Option.some.injEq] at hr
  subst hr
  exact absurd hp (by decide)

/-- C7, as the code has it: at the width 30 of the default layouts `Compress` returns
`com.example.service.Handler` unchanged (27 code points), and where it does abbreviate
it writes the initials without dots between them: `Compress(13)` returns
`ces.Handler`. -/
theorem Compress_logger_scenario :
    Compress.Transform 30 ⟨[], false, false⟩ (str "com.example.service.Handler")
        = some (str "com.example.service.Handler") ∧
      RuneCountInString (str "com.example.service.Handler") = 27 ∧
      Compress.Transform 13 ⟨[], false, false⟩ (str "com.example.service.Handler")
        = some (str "ces.Handler") := by
  decide

/-- Counterexample to C7 as stated: at no width does `Compress` return `c.e.s.Handler`
for `com.example.service.Handler`. -/
theorem Compress_never_dotted_initials :
    ¬ ∃ n : Int, Compress.Transform n ⟨[], false, false⟩ (str "com.example.service.Handler")
      = some (str "c.e.s.Handler") := by
  rintro ⟨n, h⟩
  have hrc : RuneCountInString (str "com.example.service.Handler") = 27 := by decide
  by_cases hlong : n < (RuneCountInString (str "com.example.service.Handler") : Int)
  · have hb := Compress_cut_length_le rfl hlong h
    have hl : (str "c.e.s.Handler").length = 13 := by decide
    rw [hl] at hb
    rw [hrc] at hlong
    have h13 : (13 : Int) ≤ n := by exact_mod_cast hb
    have h27 : n < 27 := by exact_mod_cast hlong
    interval_cases n <;> exact absurd h (by decide)
  · have := Compress_short (Or.inr (by omega)) h
    exact absurd this (by decide)

/-- C8, at failing inputs: with truncation enabled `Compress(3)` on `.abcdef` and
`Compress(2)` on `a..b` panic, `part[0]` being out of range on the empty segment. -/
theorem Compress_panics_on_empty_segment :
    Compress.Transform 3 ⟨[], false, false⟩ (str ".abcdef") = none ∧
      Compress.Transform 2 ⟨[], false, false⟩ (str "a..b") = none ∧
      Split (str ".abcdef") = [[], str "abcdef"] ∧
      Split (str "a..b") = [str "a", [], str "b"] := by
  decide

/-! ## Inputs that already fit, idempotence, and inputs without a dot -/

/-- C11: a string with at most `n` code points is returned unchanged by `Truncate`,
`Ellipsize` and `Compress`, with either setting of `DisableTruncate`, whatever its
number of bytes. -/
theorem short_input_unchanged (n : Int) (ctx : Context) (s : GoString)
    (h : (RuneCountInString s : Int) ≤ n) :
    Truncate.Transform n ctx s = some s ∧ Ellipsize.Transform n ctx s = some s ∧
      Compress.Transform n ctx s = some s := by
  refine ⟨?_, ?_, ?_⟩
  · simp [Truncate.Transform, h]
  · simp [Ellipsize.Transform, h]
  · simp [Compress.Transform, h]

/-- Witness of C11: `éé` has two code points and four bytes; the width is 2. -/
theorem short_input_unchanged_witness :
    (2 : Int) < ((str "éé").length : Nat) ∧
      Truncate.Transform 2 ⟨[], false, false⟩ (str "éé") = some (str "éé") ∧
      Ellipsize.Transform 2 ⟨[], false, false⟩ (str "éé") = some (str "éé") ∧
      Compress.Transform 2 ⟨[], false, false⟩ (str "éé") = some (str "éé") :=
  ⟨by decide, short_input_unchanged 2 ⟨[], false, false⟩ (str "éé") (by decide)⟩

/-- When it cuts, `Truncate.Transform` returns the first `t` bytes. -/
theorem Truncate_cut (t : Int) (ctx : Context) (s : GoString) (h0 : 0 ≤ t)
    (hT : ctx.DisableTruncate = false) (hlong : t < (RuneCountInString s : Int)) :
    Truncate.Transform t ctx s = some (s.take t.toNat) := by
  have hle := RuneCountInString_le_length s
  unfold Truncate.Transform sliceTo
  simp only [hT, Bool.false_eq_true, if_false]
  rw [if_neg (by omega), if_pos ⟨h0, by omega⟩]

/-- C13: for every width `n ≥ 0` and every input, `Truncate(n).Transform` returns a
string on which `Truncate(n).Transform` changes nothing. -/
theorem Truncate_idempotent (n : Int) (ctx : Context) (s : GoString) (h0 : 0 ≤ n) :
    ∃ r, Truncate.Transform n ctx s = some r ∧ Truncate.Transform n ctx r = some r := by
  by_cases hcut : ctx.DisableTruncate = false ∧ n < (RuneCountInString s : Int)
  · refine ⟨s.take n.toNat, Truncate_cut n ctx s h0 hcut.1 hcut.2, ?_⟩
    have hle := RuneCountInString_le_length (s.take n.toNat)
    have hlen : (s.take n.toNat).length ≤ n.toNat := by
      rw [List.length_take]
      omega
    have hfit : (RuneCountInString (s.take n.toNat) : Int) ≤ n := by omega
    simp [Truncate.Transform, hfit]
  · have hid : Truncate.Transform n ctx s = some s := by
      by_cases hT : ctx.DisableTruncate = true
      · simp [Truncate.Transform, hT]
      · have hF : ctx.DisableTruncate = false := by simpa using hT
        have : (RuneCountInString s : Int) ≤ n := by
          by_contra hc
          exact hcut ⟨hF, by omega⟩
        simp [Truncate.Transform, this]
    exact ⟨s, hid, hid⟩

/-- Witness of C13: `Truncate(1)` on `éé` returns the first byte of the first character. -/
theorem Truncate_idempotent_witness :
    Truncate.Transform 1 ⟨[], false, false⟩ (str "éé") = some [0xC3] ∧
      ∃ r, Truncate.Transform 1 ⟨[], false, false⟩ (str "éé") = some r ∧
        Truncate.Transform 1 ⟨[], false, false⟩ r = some r :=
  ⟨by decide, Truncate_idempotent 1 ⟨[], false, false⟩ (str "éé") (by decide)⟩

/-- C20: on an input without a dot and a width `n ≥ 0`, `Compress(n).Transform` and
`Truncate(n).Transform` return the same string, with either setting of
`DisableTruncate`. -/
theorem Compress_eq_Truncate_of_no_dot (n : Int) (ctx : Context) (s : GoString)
    (hdot : 46 ∉ s) (h0 : 0 ≤ n) :
    Compress.Transform n ctx s = Truncate.Transform n ctx s := by
  by_cases hcut : ctx.DisableTruncate = false ∧ n < (RuneCountInString s : Int)
  · obtain ⟨hT, hlong⟩ := hcut
    have hle := RuneCountInString_le_length s
    rw [Truncate_cut n ctx s h0 hT hlong]
    unfold Compress.Transform
    simp only [hT, Bool.false_eq_true, if_false]
    rw [if_neg (by omega), Split_no_dot s hdot]
    simp only [compressHead, List.length_singleton, Nat.sub_self, gt_iff_lt, lt_self_iff_false,
      if_false, List.getD_cons_zero]
    unfold compressTail sliceTo
    simp only [List.length_nil, Nat.cast_zero, sub_zero]
    rw [if_neg (by omega), if_pos (by omega), if_pos ⟨h0, by omega⟩]
    simp
  · have hs : ctx.DisableTruncate = true ∨ (RuneCountInString s : Int) ≤ n := by
      by_cases hT : ctx.DisableTruncate = true
      · exact Or.inl hT
      · right
        have hF : ctx.DisableTruncate = false := by simpa using hT
        by_contra hc
        exact hcut ⟨hF, by omega⟩
    rcases hs with hT | hs
    · simp [Compress.Transform, Truncate.Transform, hT]
    · simp [Compress.Transform, Truncate.Transform, hs]

/-- Witness of C20: width 3 on `Handler` and on `éé`. -/
theorem Compress_eq_Truncate_of_no_dot_witness :
    Compress.Transform 3 ⟨[], false, false⟩ (str "Handler") = some (str "Han") ∧
      Compress.Transform 1 ⟨[], false, false⟩ (str "éé")
        = Truncate.Transform 1 ⟨[], false, false⟩ (str "éé") :=
  ⟨(Compress_eq_Truncate_of_no_dot 3 ⟨[], false, false⟩ (str "Handler") (by decide)
      (by decide)).trans (by decide),
    Compress_eq_Truncate_of_no_dot 1 ⟨[], false, false⟩ (str "éé") (by decide) (by decide)⟩

/-- C14, at a failing input: `Ellipsize(1)` on `éé` returns `…é`, and `Ellipsize(1)` on
`…é` cuts again, at byte offset 2 inside the ellipsis, and returns another string. -/
theorem Ellipsize_not_idempotent :
    Ellipsize.Transform 1 ⟨[], false, false⟩ (str "éé") = some (str "…é") ∧
      Ellipsize.Transform 1 ⟨[], false, false⟩ (str "…é")
        = some [0xE2, 0x80, 0xA6, 0xA6, 0xC3, 0xA9] ∧
      str "…é" = [0xE2, 0x80, 0xA6, 0xC3, 0xA9] := by
  decide

/-- C16, at failing inputs: after the field `x ` (one trailing space) `Print` still
writes a space before the next field, and after the last field `y` it writes none. -/
theorem Print_space_before_not_after :
    ULFPrinter.Print (⟨false, false, [str "instance", str "logger"], []⟩ : ULFPrinter GoString)
        exampleStringer exampleFormat
        ⟨some [(str "category", str "\"SERVICE\""), (str "instance", str "\"x \""),
          (str "logger", str "\"y\"")],
          str "\x7b\"category\":\"SERVICE\",\"instance\":\"x \",\"logger\":\"y\"\x7d"⟩ []
      = some (str "SERV x  y\n") ∧
    renderAll exampleFormat
        ⟨some [(str "category", str "\"SERVICE\""), (str "instance", str "\"x \""),
          (str "logger", str "\"y\"")],
          str "\x7b\"category\":\"SERVICE\",\"instance\":\"x \",\"logger\":\"y\"\x7d"⟩
        ⟨[], false, false⟩ [str "instance", str "logger"] = some [str "x ", str "y"] := by
  decide

/-! ## Code points of concatenations -/

theorem RuneCountInString_cons (c : Nat) (rest : GoString) :
    RuneCountInString (c :: rest)
      = 1 + RuneCountInString (rest.drop (runeWidth c rest - 1)) := by
  have hd : (rest.drop (runeWidth c rest - 1)).length ≤ rest.length := by
    simp only [List.length_drop]
    omega
  show runeCountLoop (rest.length + 1) (c :: rest) = _
  simp only [runeCountLoop]
  rw [runeCountLoop_fuel _ _ hd]

theorem runeWidth_pred_le (c : Nat) (rest : GoString) :
    runeWidth c rest - 1 ≤ rest.length := by
  unfold runeWidth
  split_ifs <;> first
    | omega
    | (split <;> (try split_ifs) <;> (try simp only [List.length_cons]) <;> omega)

theorem inRange_ascii (lo hi x : Nat) (hlo : 0x80 ≤ lo) (hx : x < 128) :
    inRange lo hi x = false := by
  simp only [inRange, Bool.and_eq_false_imp, decide_eq_true_eq, decide_eq_false_iff_not]
  intro h
  omega

theorem runeWidth_append_ascii (c : Nat) (rest a : GoString) (ha : isASCII a) :
    runeWidth c (rest ++ a) = runeWidth c rest := by
  by_cases h1 : c < 0x80
  · simp [runeWidth, h1]
  by_cases h2 : c < 0xC2
  · simp [runeWidth, h1, h2]
  by_cases h3 : c ≤ 0xDF
  · simp only [runeWidth, if_neg h1, if_neg h2, if_pos h3]
    rcases rest with _ | ⟨r1, rest⟩
    · rcases a with _ | ⟨x, a⟩
      · rfl
      · have hx := inRange_ascii 0x80 0xBF x (le_refl _) (ha x (List.mem_cons_self _ _))
        simp [isCont, hx]
    · rfl
  by_cases h4 : c ≤ 0xEF
  · simp only [runeWidth, if_neg h1, if_neg h2, if_neg h3, if_pos h4]
    have hlo : 0x80 ≤ (if c = 0xE0 then 0xA0 else 0x80) := by split <;> omega
    rcases rest with _ | ⟨r1, _ | ⟨r2, rest⟩⟩
    · rcases a with _ | ⟨x, _ | ⟨y, a⟩⟩
      · rfl
      · rfl
      · have hx := inRange_ascii _ (if c = 0xED then 0x9F else 0xBF) x hlo
          (ha x (List.mem_cons_self _ _))
        simp [hx]
    · rcases a with _ | ⟨x, a⟩
      · rfl
      · have hx := inRange_ascii 0x80 0xBF x (le_refl _) (ha x (List.mem_cons_self _ _))
        simp [isCont, hx]
    · rfl
  by_cases h5 : c ≤ 0xF4
  · simp only [runeWidth, if_neg h1, if_neg h2, if_neg h3, if_neg h4, if_pos h5]
    have hlo : 0x80 ≤ (if c = 0xF0 then 0x90 else 0x80) := by split <;> omega
    rcases rest with _ | ⟨r1, _ | ⟨r2, _ | ⟨r3, rest⟩⟩⟩
    · rcases a with _ | ⟨x, _ | ⟨y, _ | ⟨z, a⟩⟩⟩
      · rfl
      · rfl
      · rfl
      · have hx := inRange_ascii _ (if c = 0xF4 then 0x8F else 0xBF) x hlo
          (ha x (List.mem_cons_self _ _))
        simp [hx]
    · rcases a with _ | ⟨x, _ | ⟨y, a⟩⟩
      · rfl
      · rfl
      · have hx := inRange_ascii 0x80 0xBF x (le_refl _) (ha x (List.mem_cons_self _ _))
        simp [isCont, hx]
    · rcases a with _ | ⟨x, a⟩
      · rfl
      · have hx := inRange_ascii 0x80 0xBF x (le_refl _) (ha x (List.mem_cons_self _ _))
        simp [isCont, hx]
    · rfl
  · simp [runeWidth, h1, h2, h3, h4, h5]

/-- Appending ASCII bytes adds one code point for each of them. -/
theorem RuneCountInString_append_ascii (s a : GoString) (ha : isASCII a) :
    RuneCountInString (s ++ a) = RuneCountInString s + a.length := by
  generalize hn : s.length = n
  induction n using Nat.strong_induction_on generalizing s with
  | _ n ih =>
    cases s with
    | nil =>
      simp only [List.nil_append, RuneCountInString_ascii a ha]
      show _ = 0 + _
      omega
    | cons c rest =>
      have hw := runeWidth_pred_le c rest
      have hlen : (rest.drop (runeWidth c rest - 1)).length < n := by
        simp only [List.length_drop, ← hn, List.length_cons]
        omega
      rw [List.cons_append, RuneCountInString_cons, RuneCountInString_cons,
        runeWidth_append_ascii c rest a ha, List.drop_append_of_le_length hw,
        ih _ hlen _ rfl]
      omega

/-- ASCII bytes in front add one code point for each of them. -/
theorem RuneCountInString_ascii_append (a s : GoString) (ha : isASCII a) :
    RuneCountInString (a ++ s) = a.length + RuneCountInString s := by
  induction a with
  | nil => simp
  | cons x a ih =>
    have hx : x < 128 := ha x (List.mem_cons_self _ _)
    have hw : runeWidth x (a ++ s) = 1 := by simp [runeWidth, hx]
    rw [List.cons_append, RuneCountInString_cons, hw, Nat.sub_self, List.drop_zero,
      ih (fun b hb => ha b (List.mem_cons_of_mem _ hb)), List.length_cons]
    omega

/-- The ellipsis in front adds one code point. -/
theorem RuneCountInString_ellipsis_append (s : GoString) :
    RuneCountInString (ellipsis ++ s) = 1 + RuneCountInString s := by
  have hw : runeWidth 0xE2 (0x80 :: 0xA6 :: s) = 3 := by
    simp [runeWidth, inRange, isCont]
  show RuneCountInString (0xE2 :: 0x80 :: 0xA6 :: s) = _
  rw [RuneCountInString_cons, hw]
  rfl

theorem isASCII_replicate_space (k : Nat) : isASCII (List.replicate k 32) := by
  intro b hb
  have := List.eq_of_mem_replicate hb
  omega

/-! ## Padding -/

theorem wrapInt_of_range (x : Int) (hlo : -9223372036854775808 ≤ x)
    (hhi : x < 9223372036854775808) : wrapInt x = x := by
  unfold wrapInt
  omega

/-- The code points of a string with spaces appended up to the width `n`. -/
theorem runeCount_padRight (n : Int) (s : GoString) :
    (RuneCountInString
        (s ++ List.replicate (max 0 (n - (RuneCountInString s : Int))).toNat 32) : Int)
      = max n (RuneCountInString s : Int) := by
  rw [RuneCountInString_append_ascii _ _ (isASCII_replicate_space _), List.length_replicate]
  push_cast
  omega

/-- The code points of a string with spaces in front up to the width `n`. -/
theorem runeCount_padLeft (n : Int) (s : GoString) :
    (RuneCountInString
        (List.replicate (max 0 (n - (RuneCountInString s : Int))).toNat 32 ++ s) : Int)
      = max n (RuneCountInString s : Int) := by
  rw [RuneCountInString_ascii_append _ _ (isASCII_replicate_space _), List.length_replicate]
  push_cast
  omega

/-- `RightPad.Transform` returns the padded input when the subtraction does not wrap
and the capacity is within the allocation limit. -/
theorem RightPad_eq_some (n : Int) (ctx : Context) (s : GoString)
    (hmax : n < 9223372036854775808)
    (hmin : -9223372036854775808 ≤ n - (RuneCountInString s : Int))
    (hcap : n ≤ (RuneCountInString s : Int) ∨
      n - (RuneCountInString s : Int) + (s.length : Int) ≤ maxAlloc) :
    RightPad.Transform n ctx s
      = some (s ++ List.replicate (max 0 (n - (RuneCountInString s : Int))).toNat 32) := by
  have hw : wrapInt (n - (RuneCountInString s : Int)) = n - (RuneCountInString s : Int) :=
    wrapInt_of_range _ hmin (by omega)
  unfold RightPad.Transform
  simp only [hw]
  by_cases h : n - (RuneCountInString s : Int) ≤ 0
  · rw [if_pos h, max_eq_left h]
    simp
  · have hc : n - (RuneCountInString s : Int) + (s.length : Int) ≤ maxAlloc := by
      rcases hcap with hc | hc
      · omega
      · exact hc
    have hm : maxAlloc = 281474976710656 := rfl
    have hw2 : wrapInt (n - (RuneCountInString s : Int) + (s.length : Int))
        = n - (RuneCountInString s : Int) + (s.length : Int) :=
      wrapInt_of_range _ (by omega) (by omega)
    have hnp : makeslicePanics (n - (RuneCountInString s : Int) + (s.length : Int)) = false := by
      simp only [makeslicePanics, decide_eq_false_iff_not, not_or, not_lt]
      exact ⟨by omega, hc⟩
    rw [if_neg h, hw2, hnp, max_eq_right (by omega)]
    simp

/-- `LeftPad.Transform` returns the padded input when the subtraction does not wrap and
the capacity is within the allocation limit. -/
theorem LeftPad_eq_some (n : Int) (ctx : Context) (s : GoString)
    (hmax : n < 9223372036854775808)
    (hmin : -9223372036854775808 ≤ n - (RuneCountInString s : Int))
    (hcap : n ≤ (RuneCountInString s : Int) ∨
      n - (RuneCountInString s : Int) + (s.length : Int) ≤ maxAlloc) :
    LeftPad.Transform n ctx s
      = some (List.replicate (max 0 (n - (RuneCountInString s : Int))).toNat 32 ++ s) := by
  have hw : wrapInt (n - (RuneCountInString s : Int)) = n - (RuneCountInString s : Int) :=
    wrapInt_of_range _ hmin (by omega)
  unfold LeftPad.Transform
  simp only [hw]
  by_cases h : n - (RuneCountInString s : Int) ≤ 0
  · rw [if_pos h, max_eq_left h]
    simp
  · have hc : n - (RuneCountInString s : Int) + (s.length : Int) ≤ maxAlloc := by
      rcases hcap with hc | hc
      · omega
      · exact hc
    have hm : maxAlloc = 281474976710656 := rfl
    have hw2 : wrapInt (n - (RuneCountInString s : Int) + (s.length : Int))
        = n - (RuneCountInString s : Int) + (s.length : Int) :=
      wrapInt_of_range _ (by omega) (by omega)
    have hnp : makeslicePanics (n - (RuneCountInString s : Int) + (s.length : Int)) = false := by
      simp only [makeslicePanics, decide_eq_false_iff_not, not_or, not_lt]
      exact ⟨by omega, hc⟩
    rw [if_neg h, hw2, hnp, max_eq_right (by omega)]
    simp

/-- C12, as the code has it: for an `int` width `n` such that `n - c` does not wrap
around (`n - c ≥ -2^63`) and, when `n > c`, the capacity `n - c + len(s)` is at most the
allocation limit `2^48`, `RightPad(n)` returns the input followed by `max(0, n - c)`
spaces and `LeftPad(n)` returns `max(0, n - c)` spaces followed by the input, where `c`
is the number of code points of the input; both results have `max(n, c)` code points,
both are the input when `c ≥ n`, and neither depends on the context. -/
theorem Pad_spec (n : Int) (ctx : Context) (s : GoString)
    (hmax : n < 9223372036854775808)
    (hmin : -9223372036854775808 ≤ n - (RuneCountInString s : Int))
    (hcap : n ≤ (RuneCountInString s : Int) ∨
      n - (RuneCountInString s : Int) + (s.length : Int) ≤ maxAlloc) :
    RightPad.Transform n ctx s
        = some (s ++ List.replicate (max 0 (n - (RuneCountInString s : Int))).toNat 32) ∧
      LeftPad.Transform n ctx s
        = some (List.replicate (max 0 (n - (RuneCountInString s : Int))).toNat 32 ++ s) ∧
      (RuneCountInString
          (s ++ List.replicate (max 0 (n - (RuneCountInString s : Int))).toNat 32) : Int)
        = max n (RuneCountInString s : Int) ∧
      (RuneCountInString
          (List.replicate (max 0 (n - (RuneCountInString s : Int))).toNat 32 ++ s) : Int)
        = max n (RuneCountInString s : Int) ∧
      (n ≤ (RuneCountInString s : Int) →
        RightPad.Transform n ctx s = some s ∧ LeftPad.Transform n ctx s = some s) ∧
      ∀ ctx2 : Context, RightPad.Transform n ctx2 s = RightPad.Transform n ctx s ∧
        LeftPad.Transform n ctx2 s = LeftPad.Transform n ctx s := by
  have hR := RightPad_eq_some n ctx s hmax hmin hcap
  have hL := LeftPad_eq_some n ctx s hmax hmin hcap
  refine ⟨hR, hL, runeCount_padRight n s, runeCount_padLeft n s, ?_, fun ctx2 => ⟨rfl, rfl⟩⟩
  intro hge
  rw [hR, hL, max_eq_left (by omega)]
  simp

/-- Witness of C12: padding `é[` (two code points) to 4 adds two spaces, and padding
it to 1 changes nothing. -/
theorem Pad_spec_witness :
    RightPad.Transform 4 ⟨[], false, false⟩ (str "é[") = some (str "é[  ") ∧
      LeftPad.Transform 4 ⟨[], true, true⟩ (str "é[") = some (str "  é[") ∧
      RightPad.Transform 1 ⟨[], false, false⟩ (str "é[") = some (str "é[") ∧
      LeftPad.Transform 1 ⟨[], false, false⟩ (str "é[") = some (str "é[") :=
  ⟨(Pad_spec 4 ⟨[], false, false⟩ (str "é[") (by decide) (by decide) (by decide)).1.trans
      (by decide),
    (Pad_spec 4 ⟨[], true, true⟩ (str "é[") (by decide) (by decide) (by decide)).2.1.trans
      (by decide),
    ((Pad_spec 1 ⟨[], false, false⟩ (str "é[") (by decide) (by decide)
      (by decide)).2.2.2.2.1 (by decide)).1,
    ((Pad_spec 1 ⟨[], false, false⟩ (str "é[") (by decide) (by decide)
      (by decide)).2.2.2.2.1 (by decide)).2⟩

/-- Counterexample to C12 as stated: at the width `-2^63` and the input `ab` the
subtraction wraps around to `2^63 - 2`, the capacity wraps around to `-2^63`, and both
transforms panic in `make`. -/
theorem Pad_panics_at_min_width :
    RightPad.Transform (-9223372036854775808) ⟨[], false, false⟩ (str "ab") = none ∧
      LeftPad.Transform (-9223372036854775808) ⟨[], false, false⟩ (str "ab") = none ∧
      wrapInt (-9223372036854775808 - 2) = 9223372036854775806 ∧
      wrapInt (9223372036854775806 + 2) = -9223372036854775808 := by
  decide

/-! ## `Ellipsize` on ASCII input -/

theorem isASCII_take (s : GoString) (k : Nat) (hs : isASCII s) : isASCII (s.take k) :=
  fun b hb => hs b (List.mem_of_mem_take hb)

theorem isASCII_drop (s : GoString) (k : Nat) (hs : isASCII s) : isASCII (s.drop k) :=
  fun b hb => hs b (List.mem_of_mem_drop hb)

/-- The code points of an ASCII string, the ellipsis and an ASCII string. -/
theorem RuneCountInString_ellipsized (a b : GoString) (ha : isASCII a) (hb : isASCII b) :
    RuneCountInString (a ++ ellipsis ++ b) = a.length + 1 + b.length := by
  rw [List.append_assoc, RuneCountInString_ascii_append _ _ ha,
    RuneCountInString_ellipsis_append, RuneCountInString_ascii b hb]
  omega

/-- What `Ellipsize.Transform` returns when it cuts an ASCII input. -/
theorem Ellipsize_ascii_cut (n : Nat) (ctx : Context) (s : GoString)
    (hT : ctx.DisableTruncate = false) (hs : isASCII s) (h1 : 1 ≤ n)
    (hn : n < s.length) :
    Ellipsize.Transform (n : Int) ctx s
      = some (s.take ((n - 1) / 2) ++ ellipsis
          ++ s.drop (s.length - ((n - 1) - (n - 1) / 2))) := by
  have hrc := RuneCountInString_ascii s hs
  have hdiv : Int.tdiv ((n : Int) - 1) 2 = (((n - 1) / 2 : Nat) : Int) := by
    rw [Int.tdiv_eq_ediv (by omega) (by omega)]
    omega
  unfold Ellipsize.Transform
  simp only [hT, Bool.false_eq_true, if_false, hrc]
  rw [if_neg (by omega), hdiv]
  have hend : ((((n - 1) / 2 : Nat) : Int) + ((s.length : Int) - ((n : Int) - 1))).toNat
      = s.length - ((n - 1) - (n - 1) / 2) := by omega
  unfold sliceTo sliceFrom
  rw [if_pos ⟨by omega, by omega⟩, if_pos ⟨by omega, by omega⟩, hend, Int.toNat_ofNat]

/-- C17: on an ASCII input of length `L` and a width `n` with `1 ≤ n < L`,
`Ellipsize(n).Transform` returns the first `(n-1)/2` bytes, the ellipsis and the last
`(n-1) - (n-1)/2` bytes of the input; the kept parts have `n - 1` bytes together and the
result has `n` code points. -/
theorem Ellipsize_ascii (n : Nat) (ctx : Context) (s : GoString)
    (hT : ctx.DisableTruncate = false) (hs : isASCII s) (h1 : 1 ≤ n)
    (hn : n < s.length) :
    Ellipsize.Transform (n : Int) ctx s
        = some (s.take ((n - 1) / 2) ++ ellipsis
            ++ s.drop (s.length - ((n - 1) - (n - 1) / 2))) ∧
      (s.take ((n - 1) / 2)).length = (n - 1) / 2 ∧
      (s.drop (s.length - ((n - 1) - (n - 1) / 2))).length = (n - 1) - (n - 1) / 2 ∧
      RuneCountInString (s.take ((n - 1) / 2) ++ ellipsis
        ++ s.drop (s.length - ((n - 1) - (n - 1) / 2))) = n := by
  have hlt : (s.take ((n - 1) / 2)).length = (n - 1) / 2 := by
    rw [List.length_take]
    omega
  have hld : (s.drop (s.length - ((n - 1) - (n - 1) / 2))).length
      = (n - 1) - (n - 1) / 2 := by
    rw [List.length_drop]
    omega
  refine ⟨Ellipsize_ascii_cut n ctx s hT hs h1 hn, hlt, hld, ?_⟩
  rw [RuneCountInString_ellipsized _ _ (isASCII_take s _ hs) (isASCII_drop s _ hs),
    hlt, hld]
  omega

/-- Witness of C17: `Ellipsize(18)` on `abcdefghijklmnopqrstuvwxyz` returns
`abcdefgh…rstuvwxyz`. -/
theorem Ellipsize_ascii_witness :
    Ellipsize.Transform 18 ⟨[], false, false⟩ (str "abcdefghijklmnopqrstuvwxyz")
        = some (str "abcdefgh…rstuvwxyz") ∧
      RuneCountInString (str "abcdefgh…rstuvwxyz") = 18 :=
  ⟨(Ellipsize_ascii 18 ⟨[], false, false⟩ (str "abcdefghijklmnopqrstuvwxyz") rfl
      (by decide) (by decide) (by decide)).1,
    (Ellipsize_ascii 18 ⟨[], false, false⟩ (str "abcdefghijklmnopqrstuvwxyz") rfl
      (by decide) (by decide) (by decide)).2.2.2⟩

/-! ## The columns of the default layouts -/

theorem Format_brackets (ctx : Context) (s : GoString) :
    Format.Transform (str "[%s]") ctx s = some (91 :: (s ++ [93])) := by
  show sprintfLoop s [91, 37, 115, 93] false = _
  simp [sprintfLoop]

theorem Format_plain (ctx : Context) (s : GoString) :
    Format.Transform (str "%s") ctx s = some s := by
  show sprintfLoop s [37, 115] false = _
  simp [sprintfLoop]

/-- With truncation enabled, whatever `Compress.Transform` returns has at most `c` code
points. -/
theorem Compress_runeCount_le {c : Int} {ctx : Context} {s r : GoString}
    (hT : ctx.DisableTruncate = false) (h : Compress.Transform c ctx s = some r) :
    (RuneCountInString r : Int) ≤ c := by
  have hr := RuneCountInString_le_length r
  by_cases hlong : c < (RuneCountInString s : Int)
  · have hb := Compress_cut_length_le hT hlong h
    omega
  · have hrs : r = s := Compress_short (Or.inr (by omega)) h
    subst hrs
    omega

theorem runeWidth_le_four (c : Nat) (rest : GoString) : runeWidth c rest ≤ 4 := by
  unfold runeWidth
  split_ifs <;> first
    | omega
    | (split <;> (try split_ifs) <;> omega)

/-- A code point takes at most four bytes. -/
theorem length_le_four_mul_runeCount (s : GoString) :
    s.length ≤ 4 * RuneCountInString s := by
  generalize hn : s.length = n
  induction n using Nat.strong_induction_on generalizing s with
  | _ n ih =>
    cases s with
    | nil =>
      simp only [List.length_nil] at hn
      omega
    | cons c rest =>
      have hw := runeWidth_pred_le c rest
      have h4 := runeWidth_le_four c rest
      have hlen : (rest.drop (runeWidth c rest - 1)).length < n := by
        simp only [List.length_drop, ← hn, List.length_cons]
        omega
      have h := ih _ hlen _ rfl
      rw [RuneCountInString_cons]
      simp only [List.length_drop, List.length_cons] at h hn
      omega

/-- The `instance` column: on an ASCII instance id the transformers return 20 code
points that start with `[`. -/
theorem instance_column (ctx : Context) (hT : ctx.DisableTruncate = false)
    (id : GoString) (hid : isASCII id) :
    ∃ r, instanceTransformers ctx id = some r ∧ RuneCountInString r = 20 ∧
      HasPrefix r (str "[") = true := by
  have h91s : str "[" = [91] := by decide
  have hm : maxAlloc = 281474976710656 := rfl
  by_cases hlong : 18 < id.length
  · have hE : Ellipsize.Transform 18 ctx id
        = some (id.take 8 ++ ellipsis ++ id.drop (id.length - 9)) := by
      have hcut := Ellipsize_ascii_cut 18 ctx id hT hid (by omega) hlong
      simpa using hcut
    have h91 : isASCII (91 :: id.take 8) := by
      intro b hb
      rcases List.mem_cons.mp hb with rfl | hb
      · omega
      · exact isASCII_take id 8 hid b hb
    have h93 : isASCII (id.drop (id.length - 9) ++ [93]) := by
      intro b hb
      rcases List.mem_append.mp hb with hb | hb
      · exact isASCII_drop id _ hid b hb
      · have := List.mem_singleton.mp hb
        omega
    have hshape : 91 :: ((id.take 8 ++ ellipsis ++ id.drop (id.length - 9)) ++ [93])
        = (91 :: id.take 8) ++ ellipsis ++ (id.drop (id.length - 9) ++ [93]) := by
      simp
    have hcount : RuneCountInString
        (91 :: ((id.take 8 ++ ellipsis ++ id.drop (id.length - 9)) ++ [93])) = 20 := by
      rw [hshape, RuneCountInString_ellipsized _ _ h91 h93]
      simp only [List.length_cons, List.length_take, List.length_append, List.length_drop,
        List.length_singleton, List.length_nil]
      omega
    have hpad := RightPad_eq_some 20 ctx
      (91 :: ((id.take 8 ++ ellipsis ++ id.drop (id.length - 9)) ++ [93]))
      (by omega) (by rw [hcount]; omega) (Or.inl (by rw [hcount]; omega))
    rw [hcount] at hpad
    refine ⟨91 :: ((id.take 8 ++ ellipsis ++ id.drop (id.length - 9)) ++ [93]), ?_, hcount, ?_⟩
    · simp only [instanceTransformers, hE, Format_brackets, Option.some_bind, hpad]
      simp
    · simp [HasPrefix, h91s]
  · have hrc := RuneCountInString_ascii id hid
    have hE : Ellipsize.Transform 18 ctx id = some id := by
      have hfit : (RuneCountInString id : Int) ≤ 18 := by omega
      simp [Ellipsize.Transform, hfit]
    have hasc : isASCII (91 :: (id ++ [93])) := by
      intro b hb
      rcases List.mem_cons.mp hb with rfl | hb
      · omega
      · rcases List.mem_append.mp hb with hb | hb
        · exact hid b hb
        · have := List.mem_singleton.mp hb
          omega
    have hcount := RuneCountInString_ascii _ hasc
    have hlen : (91 :: (id ++ [93])).length = id.length + 2 := by simp
    rw [hlen] at hcount
    have hpad := RightPad_eq_some 20 ctx (91 :: (id ++ [93]))
      (by omega) (by rw [hcount]; omega)
      (Or.inr (by rw [hcount, hlen, hm]; push_cast; omega))
    have hrc20 := runeCount_padRight 20 (91 :: (id ++ [93]))
    refine ⟨(91 :: (id ++ [93])) ++ List.replicate
      (max 0 (20 - (RuneCountInString (91 :: (id ++ [93])) : Int))).toNat 32, ?_, ?_, ?_⟩
    · simp only [instanceTransformers, hE, Format_brackets, Option.some_bind]
      exact hpad
    · have hmx : max (20 : Int) (RuneCountInString (91 :: (id ++ [93])) : Int) = 20 := by
        rw [max_eq_left]
        rw [hcount]
        push_cast
        omega
      rw [hmx] at hrc20
      exact_mod_cast hrc20
    · simp [HasPrefix, h91s]

/-- C19: with truncation enabled, the transformers of the `instance` field return, on
every ASCII instance id, 20 code points that start with `[`, and the transformers of the
`logger` field return 30 code points on every component on which `Compress(30)`
returns. -/
theorem default_columns (ctx : Context) (hT : ctx.DisableTruncate = false) :
    (∀ id : GoString, isASCII id →
      ∃ r, instanceTransformers ctx id = some r ∧ RuneCountInString r = 20 ∧
        HasPrefix r (str "[") = true) ∧
    (∀ comp c : GoString, Compress.Transform 30 ctx comp = some c →
      ∃ r, loggerTransformers ctx comp = some r ∧ RuneCountInString r = 30) := by
  refine ⟨fun id hid => instance_column ctx hT id hid, ?_⟩
  intro comp c hc
  have hle := Compress_runeCount_le hT hc
  have h4 := length_le_four_mul_runeCount c
  have hm : maxAlloc = 281474976710656 := rfl
  have hpad := LeftPad_eq_some 30 ctx c (by omega) (by omega) (Or.inr (by rw [hm]; omega))
  have hrc := runeCount_padLeft 30 c
  refine ⟨List.replicate (max 0 (30 - (RuneCountInString c : Int))).toNat 32 ++ c, ?_, ?_⟩
  · simp only [loggerTransformers, hc, Format_plain, Option.some_bind]
    exact hpad
  · have : max (30 : Int) (RuneCountInString c : Int) = 30 := max_eq_left hle
    rw [this] at hrc
    exact_mod_cast hrc

/-- Witness of C19: the instance id `abcdefghijklmnopqrstuvwxyz` and the component
`com.example.service.Handler`. -/
theorem default_columns_witness :
    (∃ r, instanceTransformers ⟨[], false, false⟩ (str "abcdefghijklmnopqrstuvwxyz") = some r ∧
      RuneCountInString r = 20 ∧ HasPrefix r (str "[") = true) ∧
    (∃ r, loggerTransformers ⟨[], false, false⟩ (str "com.example.service.Handler") = some r ∧
      RuneCountInString r = 30) ∧
    loggerTransformers ⟨[], false, false⟩ (str "com.example.service.Handler")
      = some (str "   com.example.service.Handler") :=
  ⟨(default_columns ⟨[], false, false⟩ rfl).1 _ (by decide),
    (default_columns ⟨[], false, false⟩ rfl).2 _ (str "com.example.service.Handler")
      (by decide),
    by decide⟩

/-! ## `Compress` when the scan stops early -/

theorem totalLength_append (xs ys : List GoString) :
    totalLength (xs ++ ys) = totalLength xs + totalLength ys := by
  simp [totalLength]

theorem totalLength_cons (a : GoString) (xs : List GoString) :
    totalLength (a :: xs) = a.length + totalLength xs := by
  simp [totalLength]

theorem length_flatten_eq (xs : List GoString) : xs.flatten.length = totalLength xs := by
  induction xs with
  | nil => rfl
  | cons a xs ih => simp [totalLength_cons, ih]

/-- The loop abbreviates a run of segments without stopping as long as the counter stays
above the width after the last of them. -/
theorem compressLoop_run (c : Int) (pre rest : List GoString) (st : CompressState)
    (hne : ∀ s ∈ pre, s ≠ []) (hascii : ∀ s ∈ pre, isASCII s)
    (hbig : c < st.compressedSize - (totalLength pre : Int) + 1) :
    compressLoop c (pre ++ rest) st =
      compressLoop c rest ⟨st.compressedPartsIndex + pre.length,
        st.compressedParts ++ pre.map (fun s => s.take 1),
        st.compressedSize - (totalLength pre : Int)⟩ := by
  induction pre generalizing st with
  | nil => simp [totalLength]
  | cons a pre ih =>
    cases a with
    | nil => exact absurd rfl (hne [] (List.mem_cons_self _ _))
    | cons b bs =>
      have hb : b < 128 := hascii (b :: bs) (List.mem_cons_self _ _) b
        (List.mem_cons_self _ _)
      have htl : (totalLength ((b :: bs) :: pre) : Int)
          = (bs.length : Int) + 1 + (totalLength pre : Int) := by
        simp [totalLength]
      rw [htl] at hbig
      have hnb : ¬ st.compressedSize - (((b :: bs).length : Nat) - 1 : Int) ≤ c := by
        simp only [List.length_cons]
        push_cast
        omega
      rw [List.cons_append]
      simp only [compressLoop]
      rw [if_neg hnb]
      rw [ih _ (fun s hs => hne s (List.mem_cons_of_mem _ hs))
        (fun s hs => hascii s (List.mem_cons_of_mem _ hs))
        (by simp only [List.length_cons]; push_cast; omega)]
      congr 2
      · simp only [List.length_cons]
        omega
      · simp [encodeRune_ascii b hb]
      · rw [htl]
        simp only [List.length_cons]
        push_cast
        omega

/-- The loop stops at the first segment after which the counter is at most the width. -/
theorem compressLoop_break (c : Int) (a : GoString) (post : List GoString)
    (st : CompressState) (hne : a ≠ []) (hascii : isASCII a)
    (hfit : st.compressedSize - ((a.length : Int) - 1) ≤ c) :
    compressLoop c (a :: post) st =
      some ⟨st.compressedPartsIndex + 1, st.compressedParts ++ [a.take 1],
        st.compressedSize - ((a.length : Int) - 1)⟩ := by
  cases a with
  | nil => exact absurd rfl hne
  | cons b bs =>
    have hb : b < 128 := hascii b (List.mem_cons_self _ _)
    simp only [compressLoop]
    rw [if_pos hfit]
    simp [encodeRune_ascii b hb]

/-- On `s_1. ... .s_k.t` the scan abbreviates the segments `pre0` and `a` and stops
there, when the counter after `a` is at most the width and the counter after the last
segment of `pre0` is not. -/
theorem Compress_stops_after (pre0 : List GoString) (a : GoString) (post : List GoString)
    (t : GoString) (n : Int) (ctx : Context) (hT : ctx.DisableTruncate = false)
    (hne : ∀ s ∈ pre0 ++ a :: post, s ≠ [])
    (hascii : ∀ s ∈ pre0 ++ a :: post, isASCII s)
    (hdot : ∀ s ∈ pre0 ++ a :: post, 46 ∉ s) (htascii : isASCII t) (htdot : 46 ∉ t)
    (hlong : n < ((dotted (pre0 ++ a :: post) t).length : Int))
    (hfit : (totalLength post : Int) + (t.length : Int)
      + ((pre0 ++ a :: post).length : Int) + 1 ≤ n)
    (hprev : pre0 ≠ [] → n < (a.length : Int) + (totalLength post : Int) + (t.length : Int)
      + ((pre0 ++ a :: post).length : Int) + 1) :
    Compress.Transform n ctx (dotted (pre0 ++ a :: post) t)
      = some (initials (pre0 ++ [a]) ++ [46]
          ++ (if post ≠ [] then post.flatten ++ [46] else []) ++ t) := by
  have hk : (pre0 ++ a :: post).length = pre0.length + 1 + post.length := by
    simp only [List.length_append, List.length_cons]
    omega
  have htot : totalLength (pre0 ++ a :: post)
      = totalLength pre0 + (a.length + totalLength post) := by
    rw [totalLength_append, totalLength_cons]
  have hL := length_dotted (pre0 ++ a :: post) t
  have hrc : RuneCountInString (dotted (pre0 ++ a :: post) t)
      = totalLength (pre0 ++ a :: post) + (pre0 ++ a :: post).length + t.length := by
    rw [RuneCountInString_ascii _ (isASCII_dotted _ t hascii htascii), hL]
  have ha_ne : a ≠ [] := hne a (by simp)
  have ha_pos : 0 < a.length := List.length_pos.mpr ha_ne
  have hrun := compressLoop_run n pre0 (a :: post)
    ⟨0, [], ((totalLength (pre0 ++ a :: post) + (pre0 ++ a :: post).length + t.length : Nat)
      : Int)⟩
    (fun s hs => hne s (List.mem_append_left _ hs))
    (fun s hs => hascii s (List.mem_append_left _ hs))
    (by
      simp only
      by_cases hp : pre0 = []
      · have h0 : totalLength pre0 = 0 := by rw [hp]; rfl
        rw [hL] at hlong
        rw [h0]
        push_cast at hlong ⊢
        omega
      · have := hprev hp
        rw [htot]
        push_cast
        omega)
  have hbrk := compressLoop_break n a post
    ⟨0 + pre0.length, [] ++ pre0.map (fun s => s.take 1),
      ((totalLength (pre0 ++ a :: post) + (pre0 ++ a :: post).length + t.length : Nat) : Int)
        - (totalLength pre0 : Int)⟩
    ha_ne (hascii a (by simp))
    (by
      simp only
      rw [htot]
      push_cast
      omega)
  have htake : ((pre0 ++ a :: post) ++ [t]).take (pre0 ++ a :: post).length
      = pre0 ++ a :: post := List.take_left' rfl
  have hlenT : ((pre0 ++ a :: post) ++ [t]).length - 1 = (pre0 ++ a :: post).length := by
    rw [List.length_append, List.length_singleton, Nat.add_sub_cancel]
  have hget : ((pre0 ++ a :: post) ++ [t]).getD (pre0 ++ a :: post).length [] = t := by
    simp only [List.getD_eq_getElem?_getD, List.getElem?_concat_length, Option.getD_some]
  have hdrop : (pre0 ++ a :: post).drop (pre0.length + 1) = post := by
    have : pre0 ++ a :: post = (pre0 ++ [a]) ++ post := by simp
    rw [this, List.drop_left' (by simp)]
  have hhead : compressHead n ((pre0 ++ a :: post) ++ [t])
      ((totalLength (pre0 ++ a :: post) + (pre0 ++ a :: post).length + t.length : Nat) : Int)
      = some (initials (pre0 ++ [a]) ++ [46]
          ++ (if post ≠ [] then post.flatten ++ [46] else [])) := by
    unfold compressHead
    simp only [hlenT, htake]
    rw [if_pos (by rw [hk]; omega), hrun, hbrk]
    simp only [Option.map_some', Nat.zero_add, List.nil_append, hdrop, hk]
    by_cases hp : post = []
    · subst hp
      simp [initials]
    · have hpl : 0 < post.length := List.length_pos.mpr hp
      rw [if_pos (by omega), if_pos hp]
      simp [initials]
  have hinit : (initials (pre0 ++ [a])).length = pre0.length + 1 := by
    rw [length_initials]
    · simp
    · intro s hs
      apply hne s
      simp only [List.mem_append, List.mem_singleton, List.mem_cons] at hs ⊢
      tauto
  unfold Compress.Transform
  simp only [hT, Bool.false_eq_true, if_false]
  rw [hrc, if_neg (by rw [hL] at hlong; omega), Split_dotted _ t hdot htdot, hhead]
  simp only [hlenT, hget]
  unfold compressTail
  rw [if_pos]
  by_cases hp : post = []
  · subst hp
    simp only [ne_eq, not_true_eq_false, if_false, List.append_nil, List.length_append,
      hinit, List.length_singleton]
    simp only [totalLength, List.map_nil, List.sum_nil, List.length_nil] at hfit hk
    rw [hk] at hfit
    push_cast at hfit ⊢
    omega
  · have hpl : 0 < post.length := List.length_pos.mpr hp
    simp only [ne_eq, hp, not_false_eq_true, if_true, List.length_append, hinit,
      List.length_singleton, length_flatten_eq]
    rw [hk] at hfit
    push_cast at hfit ⊢
    omega

theorem exists_split_at (segs : List GoString) (j : Nat) (hj1 : 1 ≤ j)
    (hjk : j ≤ segs.length) :
    ∃ pre0 a post, segs = pre0 ++ a :: post ∧ pre0.length + 1 = j := by
  have h1 : segs.take (j - 1) ++ segs.drop (j - 1) = segs := List.take_append_drop _ _
  cases hd : segs.drop (j - 1) with
  | nil =>
    have := congrArg List.length hd
    simp only [List.length_drop, List.length_nil] at this
    omega
  | cons a post =>
    refine ⟨segs.take (j - 1), a, post, ?_, ?_⟩
    · rw [← hd, h1]
    · rw [List.length_take]
      omega

/-- C18: on an ASCII input `s_1. ... .s_k.t` of more than `n` bytes with non-empty leading
segments, if `j` is the least index in `1..k` with
`len(s_j+1) + ... + len(s_k) + len(t) + k + 1 ≤ n`, then `Compress(n).Transform` returns
the initials of `s_1..s_j`, one dot, then (only if `j < k`) the segments `s_j+1..s_k`
written back to back and one more dot, then the whole of `t`; the result has at most as
many bytes as the counter holds when the scan stops, and so at most `n`. -/
theorem Compress_stops_early (segs : List GoString) (t : GoString) (n : Int) (j : Nat)
    (ctx : Context) (hT : ctx.DisableTruncate = false)
    (hne : ∀ s ∈ segs, s ≠ []) (hascii : ∀ s ∈ segs, isASCII s)
    (hdot : ∀ s ∈ segs, 46 ∉ s) (htascii : isASCII t) (htdot : 46 ∉ t)
    (hlong : n < ((dotted segs t).length : Int))
    (hj1 : 1 ≤ j) (hjk : j ≤ segs.length)
    (hfit : (totalLength (segs.drop j) : Int) + (t.length : Int) + (segs.length : Int) + 1
      ≤ n)
    (hleast : ∀ i, 1 ≤ i → i < j →
      n < (totalLength (segs.drop i) : Int) + (t.length : Int) + (segs.length : Int) + 1) :
    Compress.Transform n ctx (dotted segs t)
        = some (initials (segs.take j) ++ [46]
            ++ (if j < segs.length then (segs.drop j).flatten ++ [46] else []) ++ t) ∧
      ((initials (segs.take j) ++ [46]
          ++ (if j < segs.length then (segs.drop j).flatten ++ [46] else []) ++ t).length
        : Int) ≤ (totalLength (segs.drop j) : Int) + (t.length : Int) + (segs.length : Int) + 1 ∧
      ((initials (segs.take j) ++ [46]
          ++ (if j < segs.length then (segs.drop j).flatten ++ [46] else []) ++ t).length
        : Int) ≤ n := by
  obtain ⟨pre0, a, post, hsegs, hlen⟩ := exists_split_at segs j hj1 hjk
  subst hsegs
  subst hlen
  have htakej : (pre0 ++ a :: post).take (pre0.length + 1) = pre0 ++ [a] := by
    have : pre0 ++ a :: post = (pre0 ++ [a]) ++ post := by simp
    rw [this, List.take_left' (by simp)]
  have hdropj : (pre0 ++ a :: post).drop (pre0.length + 1) = post := by
    have : pre0 ++ a :: post = (pre0 ++ [a]) ++ post := by simp
    rw [this, List.drop_left' (by simp)]
  have hcond : (pre0.length + 1 < (pre0 ++ a :: post).length) ↔ post ≠ [] := by
    simp only [List.length_append, List.length_cons, ne_eq]
    constructor
    · intro h hp
      subst hp
      simp at h
    · intro hp
      have := List.length_pos.mpr hp
      omega
  have hcounter : ((initials ((pre0 ++ a :: post).take (pre0.length + 1)) ++ [46]
      ++ (if pre0.length + 1 < (pre0 ++ a :: post).length
          then ((pre0 ++ a :: post).drop (pre0.length + 1)).flatten ++ [46] else [])
      ++ t).length : Int)
      ≤ (totalLength ((pre0 ++ a :: post).drop (pre0.length + 1)) : Int) + (t.length : Int)
        + ((pre0 ++ a :: post).length : Int) + 1 := by
    have hinit : (initials (pre0 ++ [a])).length = pre0.length + 1 := by
      rw [length_initials]
      · simp
      · intro s hs
        apply hne s
        simp only [List.mem_append, List.mem_singleton, List.mem_cons] at hs ⊢
        tauto
    rw [htakej, hdropj]
    by_cases hp : post = []
    · rw [if_neg (fun h => hcond.mp h hp)]
      simp only [List.length_append, hinit, List.length_singleton, List.length_nil,
        List.length_cons]
      push_cast
      omega
    · have hpl : 0 < post.length := List.length_pos.mpr hp
      rw [if_pos (hcond.mpr hp)]
      simp only [List.length_append, hinit, List.length_singleton, length_flatten_eq,
        List.length_cons, List.length_nil]
      push_cast
      omega
  rw [hdropj] at hfit
  have hprev : pre0 ≠ [] → n < (a.length : Int) + (totalLength post : Int) + (t.length : Int)
      + ((pre0 ++ a :: post).length : Int) + 1 := by
    intro hp
    have hpl : 0 < pre0.length := List.length_pos.mpr hp
    have h := hleast pre0.length hpl (by omega)
    rw [List.drop_left, totalLength_cons] at h
    push_cast at h
    omega
  have hres := Compress_stops_after pre0 a post t n ctx hT hne hascii hdot htascii htdot
    hlong hfit hprev
  have heq : (initials ((pre0 ++ a :: post).take (pre0.length + 1)) ++ [46]
      ++ (if pre0.length + 1 < (pre0 ++ a :: post).length
          then ((pre0 ++ a :: post).drop (pre0.length + 1)).flatten ++ [46] else []) ++ t)
      = initials (pre0 ++ [a]) ++ [46]
          ++ (if post ≠ [] then post.flatten ++ [46] else []) ++ t := by
    rw [htakej, hdropj]
    by_cases hp : post = []
    · rw [if_neg (fun h => hcond.mp h hp), if_neg (fun h => h hp)]
    · rw [if_pos (hcond.mpr hp), if_pos hp]
  rw [heq] at hcounter ⊢
  refine ⟨hres, hcounter, ?_⟩
  have hrc := RuneCountInString_ascii _ (isASCII_dotted _ t hascii htascii)
  exact Compress_cut_length_le hT (by rw [hrc]; exact hlong) hres

/-- Witness of C18: `Compress(20)` on `com.example.service.Handler` returns
`ce.service.Handler`. -/
theorem Compress_stops_early_witness :
    Compress.Transform 20 ⟨[], false, false⟩ (str "com.example.service.Handler")
        = some (str "ce.service.Handler") ∧
      (((str "ce.service.Handler").length : Nat) : Int) ≤ 20 :=
  (fun h => ⟨h.1, h.2.2⟩) <| Compress_stops_early [str "com", str "example", str "service"] (str "Handler") 20 2
    ⟨[], false, false⟩ rfl (by decide) (by decide) (by decide) (by decide) (by decide)
    (by decide) (by decide) (by decide) (by decide)
    (by
      intro i h1 h2
      have hi : i = 1 := by omega
      subst hi
      decide)

/-! ## The parser -/

theorem IndexByte_of_not_mem (l : GoString) (b : Nat) (h : b ∉ l) : IndexByte l b = none := by
  induction l with
  | nil => rfl
  | cons c l ih =>
    simp only [List.mem_cons, not_or] at h
    have hc : c ≠ b := fun e => h.1 e.symm
    simp [IndexByte, hc, ih h.2]

theorem IndexByte_append (l rest : GoString) (b : Nat) (h : b ∉ l) :
    IndexByte (l ++ b :: rest) b = some l.length := by
  induction l with
  | nil => simp [IndexByte]
  | cons c l ih =>
    simp only [List.mem_cons, not_or] at h
    have hc : c ≠ b := fun e => h.1 e.symm
    simp [IndexByte, hc, ih h.2]

/-- An input is empty, or it starts with a line and its delimiter, or it is one last line
without a delimiter. -/
theorem inputLines_cases (p : GoString) :
    p = [] ∨
      (∃ l rest, 10 ∉ l ∧ p = l ++ 10 :: rest ∧ inputLines p = l :: inputLines rest) ∨
      (∃ l, 10 ∉ l ∧ l ≠ [] ∧ p = l ∧ inputLines p = [l]) := by
  induction p with
  | nil => exact Or.inl rfl
  | cons c rest ih =>
    right
    by_cases hc : c = 10
    · subst hc
      exact Or.inl ⟨[], rest, by simp, rfl, by simp [inputLines]⟩
    · have hc2 : ¬ 10 = c := fun e => hc e.symm
      rcases ih with h | ⟨l, r, hl, hp, hlines⟩ | ⟨l, hl, hne, hp, hlines⟩
      · subst h
        exact Or.inr ⟨[c], by simp [hc2], by simp, rfl, by simp [inputLines, hc]⟩
      · refine Or.inl ⟨c :: l, r, by simp [hc2, hl], by simp [hp], ?_⟩
        simp [inputLines, hc, hlines]
      · refine Or.inr ⟨c :: l, by simp [hc2, hl], by simp, by simp [hp], ?_⟩
        simp [inputLines, hc, hlines]

theorem Scan_nil (maxTokenSize : Nat) (hmax : 0 < maxTokenSize) :
    Scanner.Scan maxTokenSize [] = .stop none := by
  have h : ¬ maxTokenSize ≤ 0 := by omega
  simp [Scanner.Scan, ScanLines, IndexByte, h]

theorem Scan_line (maxTokenSize : Nat) (l rest : GoString) (hl : 10 ∉ l)
    (hfit : l.length < maxTokenSize) :
    Scanner.Scan maxTokenSize (l ++ 10 :: rest) = .line (dropCR l) rest := by
  obtain ⟨k, hk⟩ : ∃ k, maxTokenSize - l.length = k + 1 := ⟨maxTokenSize - l.length - 1, by omega⟩
  have htake : (l ++ 10 :: rest).take maxTokenSize = l ++ 10 :: rest.take k := by
    rw [List.take_append_eq_append_take, List.take_of_length_le (by omega), hk,
      List.take_succ_cons]
  have hne : l ++ 10 :: rest.take k ≠ [] := by simp
  have hscan : ScanLines (l ++ 10 :: rest.take k) false = (l.length + 1, some (dropCR l)) := by
    simp [ScanLines, IndexByte_append l _ 10 hl]
  have hdrop : (l ++ 10 :: rest).drop (l.length + 1) = rest := by
    have : l ++ 10 :: rest = (l ++ [10]) ++ rest := by simp
    rw [this, List.drop_left' (by simp)]
  simp only [Scanner.Scan, htake, hscan, hdrop]

theorem Scan_last (maxTokenSize : Nat) (l : GoString) (hl : 10 ∉ l) (hne : l ≠ [])
    (hfit : l.length < maxTokenSize) :
    Scanner.Scan maxTokenSize l = .line (dropCR l) [] := by
  have htake : l.take maxTokenSize = l := List.take_of_length_le (by omega)
  have h1 : ScanLines l false = (0, none) := by
    simp [ScanLines, IndexByte_of_not_mem l 10 hl]
  have h2 : ScanLines l true = (l.length, some (dropCR l)) := by
    simp [ScanLines, IndexByte_of_not_mem l 10 hl, hne]
  have h3 : ¬ maxTokenSize ≤ l.length := by omega
  simp only [Scanner.Scan, htake, h1, h2, if_neg h3, List.drop_length]

/-- With enough fuel, and every line shorter than the buffer, the loop of `Consume`
prints the lines in order, each without its terminal `\r`, and stops without an error. -/
theorem consumeLoop_lines {σ : Type}
    (Unmarshal : GoString → Option (List (GoString × GoString))) (Print : Entry → σ → σ)
    (maxTokenSize : Nat) (hmax : 0 < maxTokenSize) (fuel : Nat) (pending : GoString) (st : σ)
    (hfuel : pending.length < fuel)
    (hfit : ∀ l ∈ inputLines pending, l.length < maxTokenSize) :
    consumeLoop Unmarshal Print maxTokenSize fuel pending st
      = some ((inputLines pending).foldl
          (fun st l => Print ⟨Unmarshal (dropCR l), dropCR l⟩ st) st, none) := by
  induction fuel generalizing pending st with
  | zero => omega
  | succ fuel ih =>
    rcases inputLines_cases pending with h | ⟨l, rest, hl, hp, hlines⟩ | ⟨l, hl, hne, hp, hlines⟩
    · subst h
      simp [consumeLoop, Scan_nil maxTokenSize hmax, inputLines]
    · have hlfit : l.length < maxTokenSize := hfit l (by rw [hlines]; simp)
      have hrest : ∀ x ∈ inputLines rest, x.length < maxTokenSize := by
        intro x hx
        exact hfit x (by rw [hlines]; exact List.mem_cons_of_mem _ hx)
      have hlen : rest.length < fuel := by
        rw [hp] at hfuel
        simp only [List.length_append, List.length_cons] at hfuel
        omega
      rw [hlines]
      simp only [consumeLoop, hp, Scan_line maxTokenSize l rest hl hlfit, List.foldl_cons]
      exact ih rest _ hlen hrest
    · have hlfit : l.length < maxTokenSize := hfit l (by rw [hlines]; simp)
      rw [hlines]
      simp only [consumeLoop, hp, Scan_last maxTokenSize l hl hne hlfit, List.foldl_cons,
        List.foldl_nil]
      cases fuel with
      | zero =>
        have := List.length_pos.mpr hne
        rw [hp] at hfuel
        omega
      | succ fuel =>
        simp [consumeLoop, Scan_nil maxTokenSize hmax]

/-- C15, as the code has it: when every line of the input has fewer than 512 MiB bytes,
`Consume` calls `Print` once for each line, in input order, with `Raw` the bytes of the
line without its `\n` and without one terminal `\r`, and with `Partials` the map that
`json.Unmarshal` left for these bytes; it returns a nil error. -/
theorem Consume_prints_each_line {σ : Type}
    (Unmarshal : GoString → Option (List (GoString × GoString))) (Print : Entry → σ → σ)
    (input : GoString) (st : σ) (hfit : ∀ l ∈ inputLines input, l.length < maxLine) :
    Parser.Consume Unmarshal Print input st
      = some ((inputLines input).foldl
          (fun st l => Print ⟨Unmarshal (dropCR l), dropCR l⟩ st) st, none) :=
  consumeLoop_lines Unmarshal Print maxLine (by decide) (input.length + 1) input st
    (by omega) hfit

/-- Witness of C15: two lines that are not JSON, the first ending in `\r\n`. -/
theorem Consume_prints_each_line_witness :
    Parser.Consume (fun _ => none) recordEntry (str "not json at all\r\nsecond line") []
      = some ([(none, str "not json at all"), (none, str "second line")], none) :=
  Consume_prints_each_line (fun _ => none) recordEntry
    (str "not json at all\r\nsecond line") [] (by decide)

/-- Counterexample to C15 as stated: on the input `abc\r\n`, whose one line between the
delimiters is `abc\r`, `Print` is called with `Raw` equal to `abc`. -/
theorem Consume_drops_carriage_return :
    Parser.Consume (fun _ => none) recordEntry (str "abc\r\n") []
        = some ([(none, str "abc")], none) ∧
      inputLines (str "abc\r\n") = [str "abc\r"] ∧ str "abc" ≠ str "abc\r" :=
  ⟨rfl, by decide, by decide⟩

end jl
